import Mathlib

/-
  Verification development for the kubelint rule dependency scheduler
  (rulesorter.go, linter.go, rule.go of CoverGenius/kubelint).

  Shallow embedding notes:
  * Go maps are represented as association lists.  Go leaves the iteration
    order of a map unspecified (the runtime randomizes it); here the list
    order plays the role of one concrete iteration order, so quantifying
    over all lists representing the same map quantifies over all iteration
    orders the Go runtime may present.
  * The inner maps `edges[id] : map[RuleID]RuleID` are sets of rule IDs;
    they are represented as lists, with membership and emptiness the only
    observations the source ever makes of them.
  * `Condition`, `Fix` and `FixDescription` on a materialized rule are
    nullary closures that the scheduler invokes at most once; they are
    embedded as their return values, and the schedulers additionally record
    a trace of which rules had `Condition` (resp. `Fix`) invoked, making
    "the check was never run" an observable statement.
  * `panic` in popNextAvailable (the UnsatisfiableOrder condition) is
    embedded as `Except.error`.
  * The recursion of getDependents and of the drain loops is totalized
    with explicit fuel; the loop entry points supply fuel that is proved
    sufficient wherever a theorem depends on it.
-/

namespace Kubelint

/-- Rule identifier, a string (rule.go: `type RuleID string`). -/
abbrev RuleID := String

/-- Model of v1.Container (only identity is relevant to the scheduler). -/
structure V1Container where
  name : String
deriving DecidableEq

/-- Model of v1.PodSpec: carries its container list, which
createRules iterates over for container rules. -/
structure V1PodSpec where
  containers : List V1Container
deriving DecidableEq

/-- Model of appsv1.Deployment: `Spec.Template.Spec` is its pod spec. -/
structure AppsV1Deployment where
  podTemplateSpec : V1PodSpec
deriving DecidableEq

/-- Model of v1.Namespace (payload irrelevant to the scheduler). -/
structure V1Namespace where
  name : String
deriving DecidableEq

/-- Model of v1.PersistentVolumeClaim. -/
structure V1PersistentVolumeClaim where
  name : String
deriving DecidableEq

/-- Model of v1beta1Extensions.Deployment. -/
structure V1Beta1ExtensionsDeployment where
  name : String
deriving DecidableEq

/-- Model of batchV1.Job. -/
structure BatchV1Job where
  name : String
deriving DecidableEq

/-- Model of batchV1beta1.CronJob. -/
structure BatchV1Beta1CronJob where
  name : String
deriving DecidableEq

/-- Model of v1beta1Extensions.Ingress. -/
structure V1Beta1ExtensionsIngress where
  name : String
deriving DecidableEq

/-- Model of networkingV1.NetworkPolicy. -/
structure NetworkingV1NetworkPolicy where
  name : String
deriving DecidableEq

/-- Model of v1beta1Extensions.NetworkPolicy. -/
structure V1Beta1ExtensionsNetworkPolicy where
  name : String
deriving DecidableEq

/-- Model of rbacV1.Role. -/
structure RbacV1Role where
  name : String
deriving DecidableEq

/-- Model of rbacV1beta1.RoleBinding. -/
structure RbacV1Beta1RoleBinding where
  name : String
deriving DecidableEq

/-- Model of v1.ServiceAccount. -/
structure V1ServiceAccount where
  name : String
deriving DecidableEq

/-- Model of v1.Service. -/
structure V1Service where
  name : String
deriving DecidableEq

/-- The dynamic type of the object underlying a Resource: one constructor
per case of the type switch in linter.go createRules, plus `other` for
every type the switch does not consider (its default branch). -/
inductive KubeObject where
  | appsV1Deployment : AppsV1Deployment → KubeObject
  | v1Namespace : V1Namespace → KubeObject
  | v1PersistentVolumeClaim : V1PersistentVolumeClaim → KubeObject
  | v1Beta1ExtensionsDeployment : V1Beta1ExtensionsDeployment → KubeObject
  | batchV1Job : BatchV1Job → KubeObject
  | batchV1Beta1CronJob : BatchV1Beta1CronJob → KubeObject
  | v1Beta1ExtensionsIngress : V1Beta1ExtensionsIngress → KubeObject
  | networkingV1NetworkPolicy : NetworkingV1NetworkPolicy → KubeObject
  | v1Beta1ExtensionsNetworkPolicy : V1Beta1ExtensionsNetworkPolicy → KubeObject
  | rbacV1Role : RbacV1Role → KubeObject
  | rbacV1Beta1RoleBinding : RbacV1Beta1RoleBinding → KubeObject
  | v1ServiceAccount : V1ServiceAccount → KubeObject
  | v1Service : V1Service → KubeObject
  | other : String → KubeObject
deriving DecidableEq

/-- resource.go Resource: the typed in-memory object (TypeInfo elided:
the scheduler only dispatches on the concrete object type). -/
structure Resource where
  object : KubeObject
deriving DecidableEq

/-- resource.go YamlDerivedResource: a Resource plus its provenance. -/
structure YamlDerivedResource where
  filepath : String
  lineNumber : Nat
  resource : Resource
deriving DecidableEq

/-- rule.go Rule: the materialized scheduling unit.  `Condition` and `Fix`
are the values the nullary closures return when invoked; `Level` models
logrus.Level as a number. -/
structure Rule where
  ID : RuleID
  Prereqs : List RuleID
  Condition : Bool
  Message : String
  Level : Nat
  Resources : List YamlDerivedResource
  Fix : Bool
  FixDescription : String
deriving DecidableEq

instance : Inhabited Rule :=
  ⟨{ ID := "", Prereqs := [], Condition := true, Message := "", Level := 0,
     Resources := [], Fix := false, FixDescription := "" }⟩

/-- result.go Result: what the linter reports for one violated rule. -/
structure Result where
  Resources : List YamlDerivedResource
  Message : String
  Level : Nat
deriving DecidableEq

/-- Association-list lookup, standing for Go map indexing (`m[k]`).
Returns none where Go would return the zero value for a missing key. -/
def lookupAL {α : Type} (l : List (RuleID × α)) (k : RuleID) : Option α :=
  (l.find? (fun p => p.1 == k)).map (fun p => p.2)

/-- rulesorter.go ruleSorter: the rule set (`rules`) and, for each
not-yet-resolved rule, the set of prerequisite IDs it is still waiting on
(`edges`). -/
structure RuleSorter where
  rules : List (RuleID × Rule)
  edges : List (RuleID × List RuleID)
deriving DecidableEq

/-- rulesorter.go get: retrieve the rule given its ID. -/
def RuleSorter.get (r : RuleSorter) (id : RuleID) : Option Rule :=
  lookupAL r.rules id

/-- rulesorter.go clone: a new sorter with the same rules map entries and
an entrywise copy of the edges map.  (The aliasing content of clone —
fresh inner pending maps, shared rule pointers — is modelled explicitly
by cloneH in the heap model further below.) -/
def RuleSorter.clone (r : RuleSorter) : RuleSorter :=
  { rules := r.rules.map (fun p => (p.1, p.2)),
    edges := r.edges.map (fun p => (p.1, p.2)) }

/-- rulesorter.go newRuleSorter: `rules[r.ID] = r` and
`edges[r.ID] = set of r.Prereqs` for every rule of the batch. -/
def newRuleSorter (rules : List Rule) : RuleSorter :=
  { rules := rules.map (fun r => (r.ID, r)),
    edges := rules.map (fun r => (r.ID, r.Prereqs)) }

/-- rulesorter.go getDependents: every rule whose Prereqs chain back to
masterId, by unbounded recursion over the static rules map (no visited
set, so diamonds are traversed once per path).  The Go recursion has no
fuel; the `fuel` argument totalizes it, and callers pass `rules.length`,
which is enough for every prerequisite relation without cycles. -/
def getDependentsAux (rules : List (RuleID × Rule)) : Nat → RuleID → List RuleID
  | 0, _ => []
  | fuel + 1, masterId =>
      rules.flatMap (fun p =>
        (p.2.Prereqs.filter (fun q => q == masterId)).flatMap (fun _ =>
          p.1 :: getDependentsAux rules fuel p.1))

/-- rulesorter.go getDependents entry point (fuel = size of the rule map). -/
def RuleSorter.getDependents (r : RuleSorter) (masterId : RuleID) : List RuleID :=
  getDependentsAux r.rules r.rules.length masterId

/-- rulesorter.go getDependentRules: the dependents' rules, looked up in
the rules map (every dependent ID is a key of the rules map). -/
def RuleSorter.getDependentRules (r : RuleSorter) (masterId : RuleID) : List Rule :=
  (r.getDependents masterId).filterMap (fun id => lookupAL r.rules id)

/-- rulesorter.go popDependentRules: retrieve the transitive dependents
and delete each of them from the edges map, returning them. -/
def RuleSorter.popDependentRules (r : RuleSorter) (masterId : RuleID) :
    List Rule × RuleSorter :=
  let dependents := r.getDependentRules masterId
  (dependents,
   { r with edges :=
      r.edges.filter (fun p => decide (p.1 ∉ dependents.map Rule.ID)) })

/-- rulesorter.go isEmpty: `len(r.edges) == 0`. -/
def RuleSorter.isEmpty (r : RuleSorter) : Bool :=
  r.edges.isEmpty

/-- Delete id `x` from the pending set of rule `d` in the edges map
(`delete(r.edges[d], x)`; a no-op when `d` has no entry, as deleting
from a nil Go map is a no-op). -/
def erasePending (edges : List (RuleID × List RuleID)) (d x : RuleID) :
    List (RuleID × List RuleID) :=
  edges.map (fun p => if p.1 = d then (p.1, p.2.filter (fun q => q != x)) else p)

/-- The dependent-update loop shared by popNextAvailable and remove:
`for _, d := range deps { delete(r.edges[d], x) }`. -/
def eraseAll (edges : List (RuleID × List RuleID)) (deps : List RuleID)
    (x : RuleID) : List (RuleID × List RuleID) :=
  deps.foldl (fun e d => erasePending e d x) edges

/-- rulesorter.go remove: excuse a satisfied rule — delete its own edges
entry and delete its ID from the pending set of each of its dependents. -/
def RuleSorter.remove (r : RuleSorter) (id : RuleID) : RuleSorter :=
  let edges1 := r.edges.filter (fun p => p.1 != id)
  { r with edges := eraseAll edges1 (r.getDependents id) id }

/-- rulesorter.go popNextAvailable: take the first rule of the edges map
whose pending set is empty (first in the map iteration order, here the
list order); delete the popped ID from each dependent's pending set and
delete its own entry.  `none` models the panic ("Either there's a cycle in
your dependencies OR you've forgotten to include a prerequisite rule"). -/
def RuleSorter.popNextAvailable (r : RuleSorter) : Option (Rule × RuleSorter) :=
  match r.edges.find? (fun p => p.2.isEmpty) with
  | none => none
  | some entry =>
      let ruleId := entry.1
      let edges1 := eraseAll r.edges (r.getDependents ruleId) ruleId
      let edges2 := edges1.filter (fun p => p.1 != ruleId)
      some ((lookupAL r.rules ruleId).getD default, { r with edges := edges2 })

/-- The UnsatisfiableOrder condition: popNextAvailable found the graph
non-empty but no rule ready (linter's fatal scheduling error, a panic in
the source). -/
inductive UnsatError where
  | unsatisfiableOrder
deriving DecidableEq

/-- State of the evaluation loop of linter.go LintResource / lintResources:
the primary sorter being drained, the fix sorter being pruned, the
accumulated results, and the instrumentation trace of rule IDs whose
Condition() closure has been invoked. -/
structure EvalState where
  sorter : RuleSorter
  fixSorter : RuleSorter
  results : List Result
  evaluated : List RuleID
deriving DecidableEq

/-- Build the Result that linter.go appends for a violated rule. -/
def mkResult (rs : List YamlDerivedResource) (r : Rule) : Result :=
  { Resources := rs, Message := r.Message, Level := r.Level }

/-- The evaluation drain loop of linter.go (LintResource lines 163-184,
lintResources lines 127-146 are textually the same loop): pop the next
available rule, invoke its Condition; on false report it, pop and report
its transitive dependents; on true remove it from the fix sorter.
Fuel-totalized; each iteration strictly shrinks the edges map, so fuel
equal to the initial edges length is exact. -/
def runEvalFuel (rs : List YamlDerivedResource) :
    Nat → EvalState → Except UnsatError EvalState
  | 0, st =>
      if st.sorter.isEmpty then .ok st else .error .unsatisfiableOrder
  | fuel + 1, st =>
      if st.sorter.isEmpty then .ok st
      else
        match st.sorter.popNextAvailable with
        | none => .error .unsatisfiableOrder
        | some ruleAndSorter =>
            let rule := ruleAndSorter.1
            let sorter' := ruleAndSorter.2
            let evaluated' := st.evaluated ++ [rule.ID]
            if rule.Condition then
              runEvalFuel rs fuel
                { sorter := sorter',
                  fixSorter := st.fixSorter.remove rule.ID,
                  results := st.results,
                  evaluated := evaluated' }
            else
              let pd := sorter'.popDependentRules rule.ID
              runEvalFuel rs fuel
                { sorter := pd.2,
                  fixSorter := st.fixSorter,
                  results := st.results ++ [mkResult rs rule] ++ pd.1.map (mkResult rs),
                  evaluated := evaluated' }

/-- Entry point of the evaluation loop, with fuel fixed to the number of
edges entries (sufficient because every iteration deletes at least the
popped entry). -/
def runEval (rs : List YamlDerivedResource) (st : EvalState) :
    Except UnsatError EvalState :=
  runEvalFuel rs st.sorter.edges.length st

/-- The evaluation state LintResource starts from for a given batch:
fresh primary sorter, its clone as the fix sorter, nothing reported,
nothing evaluated. -/
def initEvalState (rules : List Rule) : EvalState :=
  let sorter := newRuleSorter rules
  { sorter := sorter, fixSorter := sorter.clone, results := [], evaluated := [] }

/-- State of the fix loop of linter.go ApplyFixes: the fix sorter being
drained, the applied-fix descriptions accumulated so far, and the
instrumentation trace of rule IDs whose Fix() closure has been invoked. -/
structure FixState where
  sorter : RuleSorter
  descriptions : List String
  attempted : List RuleID
deriving DecidableEq

/-- The fix drain loop of linter.go ApplyFixes (lines 193-201): pop the
next available rule and invoke its Fix; on failure silently pop its
transitive dependents, on success record its FixDescription. -/
def runFixFuel : Nat → FixState → Except UnsatError FixState
  | 0, fs =>
      if fs.sorter.isEmpty then .ok fs else .error .unsatisfiableOrder
  | fuel + 1, fs =>
      if fs.sorter.isEmpty then .ok fs
      else
        match fs.sorter.popNextAvailable with
        | none => .error .unsatisfiableOrder
        | some ruleAndSorter =>
            let rule := ruleAndSorter.1
            let sorter' := ruleAndSorter.2
            let attempted' := fs.attempted ++ [rule.ID]
            if rule.Fix then
              runFixFuel fuel
                { sorter := sorter',
                  descriptions := fs.descriptions ++ [rule.FixDescription],
                  attempted := attempted' }
            else
              runFixFuel fuel
                { sorter := (sorter'.popDependentRules rule.ID).2,
                  descriptions := fs.descriptions,
                  attempted := attempted' }

/-- Entry point of the fix loop for one sorter. -/
def runFix (fs : FixState) : Except UnsatError FixState :=
  runFixFuel fs.sorter.edges.length fs

/-- A declarative, not-yet-materialized rule over a resource of type α.
rule.go declares one such struct per resource kind
(AppsV1DeploymentRule, V1NamespaceRule, ...); their fields and their
CreateRule methods are all textually identical up to the bound type, so
they are embedded once, generically. -/
structure TypedRule (α : Type) where
  ID : RuleID
  Prereqs : List RuleID
  Condition : Option (α → Bool)
  Message : String
  Level : Nat
  Fix : Option (α → Bool)
  FixDescription : Option (α → String)

/-- rule.go CreateRule (all per-kind variants, e.g.
AppsV1DeploymentRule.CreateRule lines 48-75): bind the concrete resource,
wrapping a nil Condition as always-true, a nil Fix as always-false, and a
nil FixDescription as the empty string. -/
def TypedRule.CreateRule {α : Type} (d : TypedRule α) (x : α)
    (ydr : YamlDerivedResource) : Rule :=
  { ID := d.ID,
    Prereqs := d.Prereqs,
    Condition := match d.Condition with
      | none => true
      | some f => f x,
    Message := d.Message,
    Level := d.Level,
    Resources := [ydr],
    Fix := match d.Fix with
      | none => false
      | some f => f x,
    FixDescription := match d.FixDescription with
      | none => ""
      | some f => f x }

/-- rule.go InterdependentRule: a rule over the whole resource collection. -/
structure InterdependentRule where
  ID : RuleID
  Prereqs : List RuleID
  Condition : Option (List Resource → Bool)
  Message : String
  Level : Nat
  Fix : Option (List Resource → Bool)
  FixDescription : Option (List Resource → String)

/-- rule.go InterdependentRule.CreateRule: bind the bare resource list;
Resources carries every input resource. -/
def InterdependentRule.CreateRule (r : InterdependentRule)
    (resources : List YamlDerivedResource) : Rule :=
  let bareResources := resources.map (fun y => y.resource)
  { ID := r.ID,
    Prereqs := r.Prereqs,
    Condition := match r.Condition with
      | none => true
      | some f => f bareResources,
    Message := r.Message,
    Level := r.Level,
    Resources := resources,
    Fix := match r.Fix with
      | none => false
      | some f => f bareResources,
    FixDescription := match r.FixDescription with
      | none => ""
      | some f => f bareResources }

/-- linter.go Linter: the per-kind rule registers, the accumulated fix
sorters, and the accumulated resources (logger elided). -/
structure Linter where
  appsV1DeploymentRules : List (TypedRule AppsV1Deployment)
  v1NamespaceRules : List (TypedRule V1Namespace)
  v1PodSpecRules : List (TypedRule V1PodSpec)
  v1ContainerRules : List (TypedRule V1Container)
  v1PersistentVolumeClaimRules : List (TypedRule V1PersistentVolumeClaim)
  v1Beta1ExtensionsDeploymentRules : List (TypedRule V1Beta1ExtensionsDeployment)
  batchV1JobRules : List (TypedRule BatchV1Job)
  batchV1Beta1CronJobRules : List (TypedRule BatchV1Beta1CronJob)
  v1Beta1ExtensionsIngressRules : List (TypedRule V1Beta1ExtensionsIngress)
  networkingV1NetworkPolicyRules : List (TypedRule NetworkingV1NetworkPolicy)
  v1Beta1ExtensionsNetworkPolicyRules : List (TypedRule V1Beta1ExtensionsNetworkPolicy)
  rbacV1RoleRules : List (TypedRule RbacV1Role)
  rbacV1Beta1RoleBindingRules : List (TypedRule RbacV1Beta1RoleBinding)
  v1ServiceAccountRules : List (TypedRule V1ServiceAccount)
  v1ServiceRules : List (TypedRule V1Service)
  genericRules : List (TypedRule Resource)
  interdependentRules : List InterdependentRule
  fixes : List RuleSorter
  resources : List Resource

/-- linter.go createRules: generic rules are always materialized first;
then the type switch appends the register matching the object's concrete
type (the Deployment case also materializes pod-spec rules on the
template's pod spec and container rules once per container); the default
branch discards everything and reports the unconsidered type. -/
def Linter.createRules (l : Linter) (ydr : YamlDerivedResource) :
    Except String (List Rule) :=
  let resource := ydr.resource
  let base := l.genericRules.map (fun g => g.CreateRule resource ydr)
  match resource.object with
  | .appsV1Deployment d =>
      .ok (base
        ++ l.appsV1DeploymentRules.map (fun r => r.CreateRule d ydr)
        ++ l.v1PodSpecRules.map (fun r => r.CreateRule d.podTemplateSpec ydr)
        ++ l.v1ContainerRules.flatMap (fun r =>
             d.podTemplateSpec.containers.map (fun c => r.CreateRule c ydr)))
  | .v1Namespace x =>
      .ok (base ++ l.v1NamespaceRules.map (fun r => r.CreateRule x ydr))
  | .v1PersistentVolumeClaim x =>
      .ok (base ++ l.v1PersistentVolumeClaimRules.map (fun r => r.CreateRule x ydr))
  | .v1Beta1ExtensionsDeployment x =>
      .ok (base ++ l.v1Beta1ExtensionsDeploymentRules.map (fun r => r.CreateRule x ydr))
  | .batchV1Job x =>
      .ok (base ++ l.batchV1JobRules.map (fun r => r.CreateRule x ydr))
  | .batchV1Beta1CronJob x =>
      .ok (base ++ l.batchV1Beta1CronJobRules.map (fun r => r.CreateRule x ydr))
  | .v1Beta1ExtensionsIngress x =>
      .ok (base ++ l.v1Beta1ExtensionsIngressRules.map (fun r => r.CreateRule x ydr))
  | .networkingV1NetworkPolicy x =>
      .ok (base ++ l.networkingV1NetworkPolicyRules.map (fun r => r.CreateRule x ydr))
  | .v1Beta1ExtensionsNetworkPolicy x =>
      .ok (base ++ l.v1Beta1ExtensionsNetworkPolicyRules.map (fun r => r.CreateRule x ydr))
  | .rbacV1Role x =>
      .ok (base ++ l.rbacV1RoleRules.map (fun r => r.CreateRule x ydr))
  | .rbacV1Beta1RoleBinding x =>
      .ok (base ++ l.rbacV1Beta1RoleBindingRules.map (fun r => r.CreateRule x ydr))
  | .v1ServiceAccount x =>
      .ok (base ++ l.v1ServiceAccountRules.map (fun r => r.CreateRule x ydr))
  | .v1Service x =>
      .ok (base ++ l.v1ServiceRules.map (fun r => r.CreateRule x ydr))
  | .other t =>
      .error ("Resources of type " ++ t ++ " have not been considered by the linter")

/-- linter.go createInterdependentRules. -/
def Linter.createInterdependentRules (l : Linter)
    (ydrs : List YamlDerivedResource) : List Rule :=
  l.interdependentRules.map (fun r => r.CreateRule ydrs)

/-- linter.go LintResource: materialize the type-appropriate rules (an
unconsidered type yields an error and an empty rule list — the error does
not abort the function), build the sorter and its fix clone, register the
fix clone, drain the primary sorter.  The returned linter carries the
post-evaluation fix sorter; the trace of invoked Condition closures is
returned as instrumentation. -/
def Linter.LintResource (l : Linter) (ydr : YamlDerivedResource) :
    Except UnsatError (List Result × Option String × Linter × List RuleID) :=
  let rulesAndErr : List Rule × Option String :=
    match l.createRules ydr with
    | .ok rs => (rs, none)
    | .error e => ([], some e)
  match runEval [ydr] (initEvalState rulesAndErr.1) with
  | .error e => .error e
  | .ok st =>
      .ok (st.results, rulesAndErr.2,
           { l with fixes := l.fixes ++ [st.fixSorter] }, st.evaluated)

/-- linter.go lintResources: the same drain applied to the materialized
interdependent rules, with every input resource attached to each result. -/
def Linter.lintResources (l : Linter) (ydrs : List YamlDerivedResource) :
    Except UnsatError (List Result × Linter × List RuleID) :=
  let rules := l.createInterdependentRules ydrs
  match runEval ydrs (initEvalState rules) with
  | .error e => .error e
  | .ok st =>
      .ok (st.results, { l with fixes := l.fixes ++ [st.fixSorter] }, st.evaluated)

/-- The per-sorter iteration of linter.go ApplyFixes: drain each
registered fix sorter in registration order, threading the accumulated
descriptions and the Fix-invocation trace, and keep the drained sorters
(the source drains them in place; the slice keeps pointing at them). -/
def applyFixesLoop : List RuleSorter → List String → List RuleID →
    Except UnsatError (List RuleSorter × List String × List RuleID)
  | [], descs, att => .ok ([], descs, att)
  | s :: rest, descs, att =>
      match runFix { sorter := s, descriptions := descs, attempted := att } with
      | .error e => .error e
      | .ok fs =>
          match applyFixesLoop rest fs.descriptions fs.attempted with
          | .error e => .error e
          | .ok res => .ok (fs.sorter :: res.1, res.2.1, res.2.2)

/-- linter.go ApplyFixes: drain every accumulated fix sorter and return
the linter's full resource list together with the applied-fix
descriptions (plus, as instrumentation, the updated linter and the trace
of invoked Fix closures). -/
def Linter.ApplyFixes (l : Linter) :
    Except UnsatError (List Resource × List String × Linter × List RuleID) :=
  match applyFixesLoop l.fixes [] [] with
  | .error e => .error e
  | .ok res =>
      .ok (l.resources, res.2.1, { l with fixes := res.1 }, res.2.2)

/-- The rules map newRuleSorter builds from a batch (`rules[r.ID] = r`). -/
def rulesMap (batch : List Rule) : List (RuleID × Rule) :=
  batch.map (fun r => (r.ID, r))

/-- A rule ID counts as satisfied once the evaluation pass has invoked its
Condition and the Condition returned true (these are exactly the rules the
evaluator excuses from the fix sorter via remove). -/
def satB (batch : List Rule) (evaluated : List RuleID) (p : RuleID) : Bool :=
  match lookupAL (rulesMap batch) p with
  | none => false
  | some ru => decide (p ∈ evaluated) && ru.Condition

/-- The rule a scheduler working over the rules map `R` associates to an
ID (Go returns the map value, modelled with a default for absent keys). -/
def ruleOf (R : List (RuleID × Rule)) (id : RuleID) : Rule :=
  (lookupAL R id).getD default

/-- The descriptions the fix loop records along an attempt trace `t`
against rules map `R`: one FixDescription per attempted rule whose Fix
succeeded, in attempt order. -/
def descOfTrace (R : List (RuleID × Rule)) (t : List RuleID) : List String :=
  (t.filter (fun id => (ruleOf R id).Fix)).map (fun id => (ruleOf R id).FixDescription)

/-- The transitive dependents of a rule ID over a batch, as every sorter
built from the batch computes them (getDependents with the fuel the entry
point supplies). -/
def depsOf (batch : List Rule) (id : RuleID) : List RuleID :=
  getDependentsAux (rulesMap batch) (rulesMap batch).length id

/-- Validity preconditions the spec places on a batch (§3 invariant):
rule IDs are unique, and no rule is its own transitive dependent (the
prerequisite relation is acyclic).  Acyclicity is phrased through the
dependent computation itself, which makes it decidable for any concrete
batch. -/
def ValidBatch (batch : List Rule) : Prop :=
  (batch.map Rule.ID).Nodup ∧
  ∀ ru ∈ batch, ru.ID ∉ depsOf batch ru.ID

/-- Loop invariant of the evaluation drain (linter.go LintResource):

* both sorters keep the batch's rules map;
* a primary edges entry holds exactly the rule's prerequisites not yet
  popped (the only erasures on the primary graph are for popped IDs);
* IDs whose Condition ran are batch members and are gone from the edges;
* a rule is only evaluated after all its prerequisites were evaluated;
* the fix sorter holds exactly the not-yet-satisfied rules, each pending
  exactly on its not-yet-satisfied prerequisites. -/
structure EvalInv (batch : List Rule) (st : EvalState) : Prop where
  rules_eq : st.sorter.rules = rulesMap batch
  fixRules_eq : st.fixSorter.rules = rulesMap batch
  pend : ∀ d pend, (d, pend) ∈ st.sorter.edges →
    ∃ ru, (d, ru) ∈ rulesMap batch ∧
      pend = ru.Prereqs.filter (fun p => decide (p ∉ st.evaluated))
  eval_mem : ∀ id ∈ st.evaluated, ∃ ru, (id, ru) ∈ rulesMap batch
  eval_keys : ∀ id ∈ st.evaluated, ∀ pend, (id, pend) ∉ st.sorter.edges
  eval_closed : ∀ ru ∈ batch, ru.ID ∈ st.evaluated →
    ∀ p ∈ ru.Prereqs, p ∈ st.evaluated
  fix_keys : ∀ d pend, (d, pend) ∈ st.fixSorter.edges →
    ∃ ru, (d, ru) ∈ rulesMap batch ∧ satB batch st.evaluated d = false ∧
      pend = ru.Prereqs.filter (fun p => !(satB batch st.evaluated p))
  fix_complete : ∀ d ru, (d, ru) ∈ rulesMap batch →
    satB batch st.evaluated d = false →
    (d, ru.Prereqs.filter (fun p => !(satB batch st.evaluated p))) ∈
      st.fixSorter.edges

/-- Loop invariant of the fix drain (linter.go ApplyFixes) over the fix
graph left by an evaluation pass whose satisfied set is recorded in `E`:
a fix edges entry belongs to an unsatisfied rule and pends exactly on its
prerequisites that are neither satisfied nor already fix-attempted; the
attempted IDs are gone from the edges; and a rule's fix is only attempted
after each prerequisite is satisfied or attempted. -/
structure FixInv (batch : List Rule) (E : List RuleID) (fs : FixState) : Prop where
  rules_eq : fs.sorter.rules = rulesMap batch
  pend : ∀ d pend, (d, pend) ∈ fs.sorter.edges →
    ∃ ru, (d, ru) ∈ rulesMap batch ∧ satB batch E d = false ∧
      pend = ru.Prereqs.filter
        (fun p => !(satB batch E p) && decide (p ∉ fs.attempted))
  att_keys : ∀ id ∈ fs.attempted, ∀ pend, (id, pend) ∉ fs.sorter.edges
  att_closed : ∀ ru ∈ batch, ru.ID ∈ fs.attempted →
    ∀ p ∈ ru.Prereqs, satB batch E p = true ∨ p ∈ fs.attempted

/-- The satisfied set an evaluation pass leaves is downward closed: every
prerequisite of a satisfied rule is itself satisfied (its check cannot
have failed, or the rule would have been cascaded instead of evaluated). -/
def SatClosed (batch : List Rule) (E : List RuleID) : Prop :=
  ∀ ru ∈ batch, satB batch E ru.ID = true →
    ∀ p ∈ ru.Prereqs, satB batch E p = true

/-- A sorter whose edges keys each resolve, in its own rules map, to a
rule carrying that ID — true of every sorter the linter builds (stated as
a bounded quantifier, so it is decidable for concrete sorters). -/
def KeyCoherent (s : RuleSorter) : Prop :=
  ∀ p ∈ s.edges, (ruleOf s.rules p.1).ID = p.1

instance (batch : List Rule) : Decidable (ValidBatch batch) := by
  unfold ValidBatch
  infer_instance

instance (s : RuleSorter) : Decidable (KeyCoherent s) := by
  unfold KeyCoherent
  infer_instance

instance : Inhabited RuleSorter := ⟨{ rules := [], edges := [] }⟩

instance : Inhabited EvalState :=
  ⟨{ sorter := default, fixSorter := default, results := [], evaluated := [] }⟩

instance : Inhabited FixState :=
  ⟨{ sorter := default, descriptions := [], attempted := [] }⟩

/-- The final evaluation state of a batch linted on its own (used by
concrete witnesses; meaningful when the run returns ok). -/
def evalStateOf (batch : List Rule) : EvalState :=
  match runEval [] (initEvalState batch) with
  | .ok st => st
  | .error _ => default

/-- The final fix state of a batch whose evaluation pass produced
`evalStateOf batch` (used by concrete witnesses). -/
def fixStateOf (batch : List Rule) : FixState :=
  match runFix { sorter := (evalStateOf batch).fixSorter,
                 descriptions := [], attempted := [] } with
  | .ok fs => fs
  | .error _ => default

/- ===================================================================
   Heap-addressed model of the ruleSorter, for the aliasing content of
   clone: in Go the inner pending maps `edges[id]` are heap objects, and
   clone (rulesorter.go lines 22-36) allocates a fresh inner map per rule
   while sharing the rule pointers.  Here a Store holds the inner maps at
   numeric addresses and a GraphH keeps, per rule ID, the address of its
   pending set; the three mutating operations write through those
   addresses exactly as the source does.
   =================================================================== -/

/-- The heap of inner pending maps: a bump allocator plus the cells. -/
structure Store where
  next : Nat
  mem : List (Nat × List RuleID)
deriving DecidableEq

/-- Read the pending set stored at address `a` (empty for a dangling
address, as reading a nil Go map yields no entries). -/
def Store.read (s : Store) (a : Nat) : List RuleID :=
  ((s.mem.find? (fun p => p.1 == a)).map (fun p => p.2)).getD []

/-- Overwrite the cell at address `a`. -/
def Store.write (s : Store) (a : Nat) (v : List RuleID) : Store :=
  { s with mem := s.mem.map (fun p => if p.1 = a then (a, v) else p) }

/-- Allocate a fresh cell holding `v`. -/
def Store.alloc (s : Store) (v : List RuleID) : Nat × Store :=
  (s.next, { next := s.next + 1, mem := s.mem ++ [(s.next, v)] })

/-- A ruleSorter whose inner pending maps live in a Store: `edges` maps
each unresolved rule ID to the address of its pending set. -/
structure GraphH where
  rules : List (RuleID × Rule)
  edges : List (RuleID × Nat)
deriving DecidableEq

/-- The addresses a graph owns (those its operations may write). -/
def addrsOf (g : GraphH) : List Nat :=
  g.edges.map (fun p => p.2)

/-- newRuleSorter in the heap model: allocate one pending cell per rule,
seeded with its Prereqs (rule by rule, in batch order, exactly as the
construction loop allocates one inner map per rule). -/
def newRuleSorterH : List Rule → Store → GraphH × Store
  | [], s => ({ rules := [], edges := [] }, s)
  | r :: rest, s =>
      let av := s.alloc r.Prereqs
      let gs := newRuleSorterH rest av.2
      ({ rules := (r.ID, r) :: gs.1.rules,
         edges := (r.ID, av.1) :: gs.1.edges }, gs.2)

/-- The edge-copying loop of clone: for each entry, allocate a fresh cell
holding a copy of the entry's current pending set. -/
def cloneEdgesH : List (RuleID × Nat) → Store → List (RuleID × Nat) × Store
  | [], s => ([], s)
  | p :: rest, s =>
      let av := s.alloc (s.read p.2)
      let res := cloneEdgesH rest av.2
      ((p.1, av.1) :: res.1, res.2)

/-- clone in the heap model (rulesorter.go lines 22-36): the rules map is
copied entry by entry (sharing the Rule values), and every pending set is
copied into a freshly allocated cell — the clone owns no address of the
original. -/
def cloneH (g : GraphH) (s : Store) : GraphH × Store :=
  let res := cloneEdgesH g.edges s
  ({ rules := g.rules, edges := res.1 }, res.2)

/-- popNextAvailable in the heap model: find the first ready entry,
erase the popped ID from each dependent's pending cell (a no-op for
dependents with no edges entry, like deleting from a nil map), and drop
the popped entry. -/
def popNextAvailableH (g : GraphH) (s : Store) : Option Rule × GraphH × Store :=
  match g.edges.find? (fun p => (s.read p.2).isEmpty) with
  | none => (none, g, s)
  | some entry =>
      let ruleId := entry.1
      let s' := (getDependentsAux g.rules g.rules.length ruleId).foldl
        (fun st d =>
          match lookupAL g.edges d with
          | none => st
          | some a => st.write a ((st.read a).filter (fun q => q != ruleId)))
        s
      (some (ruleOf g.rules ruleId),
       { g with edges := g.edges.filter (fun p => p.1 != ruleId) }, s')

/-- remove in the heap model: drop the rule's own entry, then erase its
ID from each dependent's pending cell. -/
def removeH (g : GraphH) (s : Store) (id : RuleID) : GraphH × Store :=
  let g' : GraphH := { g with edges := g.edges.filter (fun p => p.1 != id) }
  let s' := (getDependentsAux g.rules g.rules.length id).foldl
    (fun st d =>
      match lookupAL g'.edges d with
      | none => st
      | some a => st.write a ((st.read a).filter (fun q => q != id)))
    s
  (g', s')

/-- popDependentRules in the heap model: drop every transitive
dependent's entry (pure bookkeeping, no cell is written). -/
def popDependentRulesH (g : GraphH) (s : Store) (masterId : RuleID) :
    GraphH × Store :=
  let dependents :=
    (getDependentsAux g.rules g.rules.length masterId).filterMap
      (fun id => lookupAL g.rules id)
  ({ g with edges :=
      g.edges.filter (fun p => decide (p.1 ∉ dependents.map Rule.ID)) }, s)

/-- The mutating ruleSorter operations, as graph/store transformers. -/
inductive OpH where
  | pop
  | remove (id : RuleID)
  | popDeps (id : RuleID)

/-- Apply one operation in the heap model. -/
def applyOpH : OpH → GraphH → Store → GraphH × Store
  | .pop, g, s => (popNextAvailableH g s).2
  | .remove id, g, s => removeH g s id
  | .popDeps id, g, s => popDependentRulesH g s id

/-- Apply a sequence of operations in the heap model. -/
def runOpsH : List OpH → GraphH → Store → GraphH × Store
  | [], g, s => (g, s)
  | op :: σ, g, s =>
      let gs := applyOpH op g s
      runOpsH σ gs.1 gs.2

/-- The empty heap. -/
def emptyStore : Store := { next := 0, mem := [] }

/-- The graph a batch builds in the empty heap. -/
def c8graph (batch : List Rule) : GraphH := (newRuleSorterH batch emptyStore).1

/-- The heap after building that graph. -/
def c8store (batch : List Rule) : Store := (newRuleSorterH batch emptyStore).2

/-- The clone of that graph. -/
def c8clone (batch : List Rule) : GraphH :=
  (cloneH (c8graph batch) (c8store batch)).1

/-- The heap after cloning. -/
def c8cstore (batch : List Rule) : Store :=
  (cloneH (c8graph batch) (c8store batch)).2

/- ===================================================================
   Concrete instances used by witnesses and counterexamples.
   =================================================================== -/

/-- Shorthand for a concrete materialized rule. -/
def mkRule (id : RuleID) (pre : List RuleID) (cond : Bool) (msg : String)
    (fix : Bool) (fixDesc : String) : Rule :=
  { ID := id, Prereqs := pre, Condition := cond, Message := msg, Level := 0,
    Resources := [], Fix := fix, FixDescription := fixDesc }

/-- Diamond batch: A fails; B and C assume A; D assumes both B and C, so
D is reachable from the failed A along two paths. -/
def diamondBatch : List Rule :=
  [mkRule "A" [] false "a" false "",
   mkRule "B" ["A"] true "b" false "",
   mkRule "C" ["A"] true "c" false "",
   mkRule "D" ["B", "C"] true "d" false ""]

/-- Two-rule cyclic batch (A and B each declare the other as
prerequisite): no rule is ever ready. -/
def cyclicBatch : List Rule :=
  [mkRule "A" ["B"] true "a" false "",
   mkRule "B" ["A"] true "b" false ""]

/-- Two independent failing rules, listed A first: one iteration order of
the pending map {A: empty, B: empty}. -/
def pairAB : List Rule :=
  [mkRule "A" [] false "a" false "",
   mkRule "B" [] false "b" false ""]

/-- The same two rules listed B first: the other iteration order of the
identical pending map. -/
def pairBA : List Rule :=
  [mkRule "B" [] false "b" false "",
   mkRule "A" [] false "a" false ""]

/-- A two-rule chain for witnesses: A fails its check and its fix, B
depends on A. -/
def chainBatch : List Rule :=
  [mkRule "A" [] false "a" false "fixA",
   mkRule "B" ["A"] true "b" true "fixB"]

/-- A chain whose head passes its check: A passes, B (depending on A)
fails, C depends on B; used by the C4 witness. -/
def chainPassBatch : List Rule :=
  [mkRule "A" [] true "a" false "",
   mkRule "B" ["A"] false "b" true "fixB",
   mkRule "C" ["B"] true "c" true "fixC"]

/-- A linter with no registered rules, no fix graphs and no resources. -/
def emptyLinter : Linter :=
  { appsV1DeploymentRules := [], v1NamespaceRules := [], v1PodSpecRules := [],
    v1ContainerRules := [], v1PersistentVolumeClaimRules := [],
    v1Beta1ExtensionsDeploymentRules := [], batchV1JobRules := [],
    batchV1Beta1CronJobRules := [], v1Beta1ExtensionsIngressRules := [],
    networkingV1NetworkPolicyRules := [],
    v1Beta1ExtensionsNetworkPolicyRules := [], rbacV1RoleRules := [],
    rbacV1Beta1RoleBindingRules := [], v1ServiceAccountRules := [],
    v1ServiceRules := [], genericRules := [], interdependentRules := [],
    fixes := [], resources := [] }

instance : Inhabited Linter := ⟨emptyLinter⟩

/-- A concrete resource (a namespace object). -/
def exampleResource : Resource := { object := .v1Namespace { name := "ns" } }

/-- A rule whose check failed and whose fix fails. -/
def exampleRule : Rule := mkRule "A" [] false "a" false ""

/-- A linter that has read one resource and accumulated one fix graph
holding only exampleRule (whose fix fails), so no fix can succeed. -/
def exampleLinter : Linter :=
  { emptyLinter with
    fixes := [newRuleSorter [exampleRule]],
    resources := [exampleResource] }

/-- A generic (any-type) declarative rule, used to show that generic
rules are discarded for unconsidered resource types. -/
def exampleGenericRule : TypedRule Resource :=
  { ID := "G", Prereqs := [], Condition := some (fun _ => false),
    Message := "g", Level := 0, Fix := none, FixDescription := none }

/-- A linter with one registered generic rule. -/
def genericLinter : Linter :=
  { emptyLinter with genericRules := [exampleGenericRule] }

/-- A resource whose underlying object type the createRules type switch
does not consider. -/
def otherYdr : YamlDerivedResource :=
  { filepath := "f.yaml", lineNumber := 1,
    resource := { object := .other "Foo" } }

/-- The outcome of running ApplyFixes on exampleLinter (meaningful since
that run returns ok). -/
def exampleApplyOut : List Resource × List String × Linter × List RuleID :=
  match exampleLinter.ApplyFixes with
  | .ok o => o
  | .error _ => default

/- ===================================================================
   Basic lemmas: association lists, the rules map, and the edge updates.
   =================================================================== -/

lemma length_filter_lt_of {α : Type} (p : α → Bool) {l : List α} {a : α}
    (ha : a ∈ l) (hpa : p a = false) : (l.filter p).length < l.length := by
  induction l with
  | nil => cases ha
  | cons b t ih =>
      rcases List.mem_cons.mp ha with rfl | hmem
      · simp only [List.filter_cons, hpa]
        exact Nat.lt_succ_of_le (List.length_filter_le p t)
      · by_cases hb : p b
        · simpa [List.filter_cons, hb] using ih hmem
        · simp only [List.filter_cons, Bool.not_eq_true] at hb
          simp only [List.filter_cons, hb]
          exact Nat.lt_succ_of_lt (ih hmem)

lemma mem_of_lookupAL {α : Type} {l : List (RuleID × α)} {k : RuleID} {v : α}
    (h : lookupAL l k = some v) : (k, v) ∈ l := by
  unfold lookupAL at h
  cases hf : l.find? (fun p => p.1 == k) with
  | none => rw [hf] at h; cases h
  | some p =>
      rw [hf] at h
      have hp := List.find?_some hf
      have hmem := List.mem_of_find?_eq_some hf
      simp only [Option.map_some'] at h
      have : p.1 = k := by simpa using hp
      have : p = (k, v) := by
        cases p with
        | mk a b => simp_all
      rw [this] at hmem
      exact hmem

lemma lookupAL_of_mem {α : Type} {l : List (RuleID × α)} {k : RuleID} {v : α}
    (hnd : (l.map Prod.fst).Nodup) (h : (k, v) ∈ l) : lookupAL l k = some v := by
  induction l with
  | nil => cases h
  | cons b t ih =>
      simp only [List.map_cons, List.nodup_cons] at hnd
      rcases List.mem_cons.mp h with rfl | hmem
      · simp [lookupAL, List.find?_cons]
      · have hne : b.1 ≠ k := by
          intro hk
          exact hnd.1 (by
            have : k ∈ t.map Prod.fst := List.mem_map_of_mem Prod.fst hmem
            simpa [hk] using this)
        have := ih hnd.2 hmem
        simpa [lookupAL, List.find?_cons, hne] using this

lemma lookupAL_eq_none {α : Type} {l : List (RuleID × α)} {k : RuleID}
    (h : ∀ v : α, (k, v) ∉ l) : lookupAL l k = none := by
  have hnone : l.find? (fun p => p.1 == k) = none := by
    apply List.find?_eq_none.mpr
    intro p hp hbeq
    have hk : p.1 = k := by simpa using hbeq
    cases p with
    | mk a b =>
        exact h b (by rw [← hk]; exact hp)
  simp [lookupAL, hnone]

lemma mem_rulesMap {batch : List Rule} {d : RuleID} {ru : Rule} :
    (d, ru) ∈ rulesMap batch ↔ ru ∈ batch ∧ d = ru.ID := by
  unfold rulesMap
  constructor
  · intro h
    rcases List.mem_map.mp h with ⟨r, hr, heq⟩
    cases heq
    exact ⟨hr, rfl⟩
  · rintro ⟨h, rfl⟩
    exact List.mem_map_of_mem _ h

lemma rulesMap_keys {batch : List Rule} :
    (rulesMap batch).map Prod.fst = batch.map Rule.ID := by
  unfold rulesMap
  rw [List.map_map]
  rfl

lemma rulesMap_keys_nodup {batch : List Rule}
    (h : (batch.map Rule.ID).Nodup) : ((rulesMap batch).map Prod.fst).Nodup := by
  rw [rulesMap_keys]; exact h

lemma ruleOf_eq {batch : List Rule} {d : RuleID} {ru : Rule}
    (hnd : (batch.map Rule.ID).Nodup) (h : (d, ru) ∈ rulesMap batch) :
    ruleOf (rulesMap batch) d = ru := by
  unfold ruleOf
  rw [lookupAL_of_mem (rulesMap_keys_nodup hnd) h]
  rfl

lemma rulesMap_unique {batch : List Rule} {d : RuleID} {ru1 ru2 : Rule}
    (hnd : (batch.map Rule.ID).Nodup) (h1 : (d, ru1) ∈ rulesMap batch)
    (h2 : (d, ru2) ∈ rulesMap batch) : ru1 = ru2 := by
  have e1 := lookupAL_of_mem (rulesMap_keys_nodup hnd) h1
  have e2 := lookupAL_of_mem (rulesMap_keys_nodup hnd) h2
  rw [e1] at e2
  exact (Option.some.injEq _ _).mp e2

lemma eraseAll_eq_map (edges : List (RuleID × List RuleID))
    (deps : List RuleID) (x : RuleID) :
    eraseAll edges deps x = edges.map (fun p =>
      if p.1 ∈ deps then (p.1, p.2.filter (fun q => q != x)) else p) := by
  induction deps generalizing edges with
  | nil =>
      simp [eraseAll]
  | cons d deps ih =>
      have step : eraseAll edges (d :: deps) x =
          eraseAll (erasePending edges d x) deps x := rfl
      rw [step, ih, erasePending, List.map_map]
      apply List.map_congr_left
      intro p _
      by_cases hd : p.1 = d
      · by_cases hmem : p.1 ∈ deps <;>
          simp [Function.comp, hd, hmem, List.filter_filter]
      · by_cases hmem : p.1 ∈ deps <;>
          simp [Function.comp, hd, hmem, List.mem_cons]

lemma eraseAll_keys (edges : List (RuleID × List RuleID))
    (deps : List RuleID) (x : RuleID) :
    (eraseAll edges deps x).map Prod.fst = edges.map Prod.fst := by
  rw [eraseAll_eq_map, List.map_map]
  apply List.map_congr_left
  intro p _
  by_cases hmem : p.1 ∈ deps <;> simp [Function.comp, hmem]

lemma mem_eraseAll {edges : List (RuleID × List RuleID)} {deps : List RuleID}
    {x : RuleID} {d : RuleID} {pend : List RuleID}
    (h : (d, pend) ∈ eraseAll edges deps x) :
    ∃ pend0, (d, pend0) ∈ edges ∧
      ((d ∈ deps ∧ pend = pend0.filter (fun q => q != x)) ∨
       (d ∉ deps ∧ pend = pend0)) := by
  rw [eraseAll_eq_map] at h
  rcases List.mem_map.mp h with ⟨p, hp, heq⟩
  by_cases hmem : p.1 ∈ deps
  · rw [if_pos hmem] at heq
    cases heq
    exact ⟨p.2, by simpa using hp, Or.inl ⟨hmem, rfl⟩⟩
  · rw [if_neg hmem] at heq
    cases p with
    | mk a b =>
        cases heq
        exact ⟨pend, hp, Or.inr ⟨hmem, rfl⟩⟩

lemma mem_eraseAll_of_mem {edges : List (RuleID × List RuleID)}
    {deps : List RuleID} {x : RuleID} {d : RuleID} {pend0 : List RuleID}
    (h : (d, pend0) ∈ edges) :
    (d, if d ∈ deps then pend0.filter (fun q => q != x) else pend0) ∈
      eraseAll edges deps x := by
  rw [eraseAll_eq_map]
  have := List.mem_map_of_mem (fun p =>
    if p.1 ∈ deps then (p.1, p.2.filter (fun q => q != x)) else p) h
  by_cases hmem : d ∈ deps <;> simpa [hmem] using this

/- ===================================================================
   Lemmas about getDependentsAux.
   =================================================================== -/

lemma exists_of_mem_getDependentsAux {rules : List (RuleID × Rule)}
    {f : Nat} {m d : RuleID} (h : d ∈ getDependentsAux rules f m) :
    ∃ ru, (d, ru) ∈ rules := by
  induction f generalizing m with
  | zero => cases h
  | succ f ih =>
      unfold getDependentsAux at h
      rcases List.mem_flatMap.mp h with ⟨p, hp, hin⟩
      rcases List.mem_flatMap.mp hin with ⟨q, _, hdq⟩
      rcases List.mem_cons.mp hdq with rfl | hrec
      · exact ⟨p.2, by simpa using hp⟩
      · exact ih hrec

lemma direct_mem_getDependentsAux {rules : List (RuleID × Rule)} {f : Nat}
    {m d : RuleID} {ru : Rule} (hmem : (d, ru) ∈ rules)
    (hpre : m ∈ ru.Prereqs) : d ∈ getDependentsAux rules (f + 1) m := by
  unfold getDependentsAux
  apply List.mem_flatMap.mpr
  refine ⟨(d, ru), hmem, ?_⟩
  apply List.mem_flatMap.mpr
  refine ⟨m, List.mem_filter.mpr ⟨hpre, by simp⟩, ?_⟩
  exact List.mem_cons_self _ _

lemma mem_getDependentsAux_succ_elim {rules : List (RuleID × Rule)}
    {f : Nat} {m d : RuleID} (h : d ∈ getDependentsAux rules (f + 1) m) :
    ∃ id0 ru0, (id0, ru0) ∈ rules ∧ m ∈ ru0.Prereqs ∧
      (d = id0 ∨ d ∈ getDependentsAux rules f id0) := by
  unfold getDependentsAux at h
  rcases List.mem_flatMap.mp h with ⟨p, hp, hin⟩
  rcases List.mem_flatMap.mp hin with ⟨q, hq, hdq⟩
  have hqm : q ∈ p.2.Prereqs ∧ q = m := by
    have := List.mem_filter.mp hq
    exact ⟨this.1, by simpa using this.2⟩
  refine ⟨p.1, p.2, by simpa using hp, hqm.2 ▸ hqm.1, ?_⟩
  rcases List.mem_cons.mp hdq with rfl | hrec
  · exact Or.inl rfl
  · exact Or.inr hrec

/-- No rule of a batch is registered as a direct dependent of `m` unless
`m` is among its prerequisites (contrapositive of membership, used to show
that the erasure loops touch every rule that pends on the popped ID). -/
lemma not_direct_dep {rules : List (RuleID × Rule)} {m d : RuleID} {ru : Rule}
    (hmem : (d, ru) ∈ rules)
    (hnot : d ∉ getDependentsAux rules rules.length m) : m ∉ ru.Prereqs := by
  intro hpre
  cases hlen : rules.length with
  | zero =>
      rw [List.length_eq_zero] at hlen
      rw [hlen] at hmem
      cases hmem
  | succ n =>
      exact hnot (by
        rw [hlen]
        exact direct_mem_getDependentsAux hmem hpre)

/- ===================================================================
   Lemmas about the ruleSorter operations.
   =================================================================== -/

lemma popNextAvailable_none_iff {r : RuleSorter} :
    r.popNextAvailable = none ↔ ∀ p ∈ r.edges, p.2 ≠ ([] : List RuleID) := by
  unfold RuleSorter.popNextAvailable
  cases hf : r.edges.find? (fun p => p.2.isEmpty) with
  | none =>
      simp only [true_iff]
      intro p hp hp2
      have := List.find?_eq_none.mp hf p hp
      simp [hp2] at this
  | some entry =>
      simp only [reduceCtorEq, false_iff, not_forall]
      have hp := List.find?_some hf
      have hmem := List.mem_of_find?_eq_some hf
      exact ⟨entry, hmem, by simpa [List.isEmpty_iff] using hp⟩

lemma popNextAvailable_some_spec {r : RuleSorter} {ru : Rule} {s' : RuleSorter}
    (h : r.popNextAvailable = some (ru, s')) :
    ∃ ruleId, (ruleId, ([] : List RuleID)) ∈ r.edges ∧
      ru = ruleOf r.rules ruleId ∧
      s'.rules = r.rules ∧
      s'.edges = (eraseAll r.edges (r.getDependents ruleId) ruleId).filter
        (fun p => p.1 != ruleId) := by
  unfold RuleSorter.popNextAvailable at h
  cases hf : r.edges.find? (fun p => p.2.isEmpty) with
  | none => rw [hf] at h; cases h
  | some entry =>
      rw [hf] at h
      have hp := List.find?_some hf
      have hmem := List.mem_of_find?_eq_some hf
      have hnil : entry.2 = [] := by simpa [List.isEmpty_iff] using hp
      cases h
      refine ⟨entry.1, ?_, rfl, rfl, rfl⟩
      rw [← hnil]
      simpa using hmem

lemma popNextAvailable_length {r : RuleSorter} {ru : Rule} {s' : RuleSorter}
    (h : r.popNextAvailable = some (ru, s')) :
    s'.edges.length < r.edges.length := by
  rcases popNextAvailable_some_spec h with ⟨ruleId, hmem, _, _, hedges⟩
  rw [hedges]
  have hin := @mem_eraseAll_of_mem r.edges (r.getDependents ruleId) ruleId
    ruleId [] hmem
  calc ((eraseAll r.edges (r.getDependents ruleId) ruleId).filter
          (fun p => p.1 != ruleId)).length
      < (eraseAll r.edges (r.getDependents ruleId) ruleId).length := by
        apply length_filter_lt_of _ hin
        simp
    _ = r.edges.length := by
        rw [eraseAll_eq_map, List.length_map]

lemma popDependentRules_edges_sub {r : RuleSorter} {masterId : RuleID}
    {d : RuleID} {pend : List RuleID}
    (h : (d, pend) ∈ (r.popDependentRules masterId).2.edges) :
    (d, pend) ∈ r.edges ∧
      d ∉ ((r.popDependentRules masterId).1.map Rule.ID) := by
  unfold RuleSorter.popDependentRules at h ⊢
  have := List.mem_filter.mp h
  exact ⟨this.1, by simpa using this.2⟩

lemma popDependentRules_length_le (r : RuleSorter) (masterId : RuleID) :
    (r.popDependentRules masterId).2.edges.length ≤ r.edges.length := by
  unfold RuleSorter.popDependentRules
  exact List.length_filter_le _ _

lemma popDependentRules_rules (r : RuleSorter) (masterId : RuleID) :
    (r.popDependentRules masterId).2.rules = r.rules := rfl

/-- Over a coherently built rules map, the IDs of the popped dependent
rules are exactly the dependent IDs getDependents produced. -/
lemma depsRules_map_ID {batch : List Rule}
    (hnd : (batch.map Rule.ID).Nodup) (deps : List RuleID)
    (hdeps : ∀ d ∈ deps, ∃ ru, (d, ru) ∈ rulesMap batch) :
    (deps.filterMap (fun id => lookupAL (rulesMap batch) id)).map Rule.ID
      = deps := by
  induction deps with
  | nil => rfl
  | cons d t ih =>
      rcases hdeps d (List.mem_cons_self _ _) with ⟨ru, hru⟩
      have hl : lookupAL (rulesMap batch) d = some ru :=
        lookupAL_of_mem (rulesMap_keys_nodup hnd) hru
      have hid : ru.ID = d := (mem_rulesMap.mp hru).2.symm
      simp only [List.filterMap_cons, hl, List.map_cons, hid]
      rw [ih (fun x hx => hdeps x (List.mem_cons_of_mem _ hx))]

/- ===================================================================
   Lemmas about the satisfied-set predicate satB.
   =================================================================== -/

lemma satB_false_of_not_mem {batch : List Rule} {E : List RuleID} {p : RuleID}
    (h : p ∉ E) : satB batch E p = false := by
  unfold satB
  cases lookupAL (rulesMap batch) p with
  | none => rfl
  | some ru => simp [h]

lemma satB_true_elim {batch : List Rule} {E : List RuleID} {p : RuleID}
    (h : satB batch E p = true) :
    ∃ ru, (p, ru) ∈ rulesMap batch ∧ p ∈ E ∧ ru.Condition = true := by
  unfold satB at h
  cases hl : lookupAL (rulesMap batch) p with
  | none => rw [hl] at h; cases h
  | some ru =>
      rw [hl] at h
      simp only [Bool.and_eq_true, decide_eq_true_eq] at h
      exact ⟨ru, mem_of_lookupAL hl, h.1, h.2⟩

lemma satB_snoc_ne {batch : List Rule} {E : List RuleID} {p x : RuleID}
    (hne : p ≠ x) : satB batch (E ++ [x]) p = satB batch E p := by
  unfold satB
  cases lookupAL (rulesMap batch) p with
  | none => rfl
  | some ru => simp [List.mem_append, hne]

lemma satB_snoc_false {batch : List Rule} {E : List RuleID} {x : RuleID}
    {ru : Rule} (hnd : (batch.map Rule.ID).Nodup)
    (hmem : (x, ru) ∈ rulesMap batch) (hcond : ru.Condition = false)
    (p : RuleID) : satB batch (E ++ [x]) p = satB batch E p := by
  by_cases hpx : p = x
  · subst hpx
    simp [satB, lookupAL_of_mem (rulesMap_keys_nodup hnd) hmem, hcond]
  · exact satB_snoc_ne hpx

lemma satB_snoc_true {batch : List Rule} {E : List RuleID} {x : RuleID}
    {ru : Rule} (hnd : (batch.map Rule.ID).Nodup)
    (hmem : (x, ru) ∈ rulesMap batch) (hcond : ru.Condition = true) :
    satB batch (E ++ [x]) x = true := by
  simp [satB, lookupAL_of_mem (rulesMap_keys_nodup hnd) hmem, hcond]

lemma satB_mono {batch : List Rule} {E : List RuleID} {p x : RuleID}
    (h : satB batch E p = true) : satB batch (E ++ [x]) p = true := by
  by_cases hpx : p = x
  · subst hpx
    unfold satB at h ⊢
    cases hl : lookupAL (rulesMap batch) p with
    | none => rw [hl] at h; cases h
    | some ru =>
        rw [hl] at h
        simp only [Bool.and_eq_true, decide_eq_true_eq] at h
        simp [List.mem_append, h.2]
  · rw [satB_snoc_ne hpx]; exact h

/- ===================================================================
   Filter bookkeeping identities used by the invariant preservation.
   =================================================================== -/

lemma filter_pending_snoc (l : List RuleID) (E : List RuleID) (x : RuleID) :
    (l.filter (fun p => decide (p ∉ E))).filter (fun q => q != x) =
      l.filter (fun p => decide (p ∉ E ++ [x])) := by
  rw [List.filter_filter]
  apply List.filter_congr
  intro a _
  by_cases hax : a = x
  · subst hax; simp [List.mem_append]
  · by_cases haE : a ∈ E <;> simp [List.mem_append, hax, haE]

lemma filter_pending_snoc_of_not_mem (l : List RuleID) (E : List RuleID)
    (x : RuleID) (hx : x ∉ l) :
    l.filter (fun p => decide (p ∉ E ++ [x])) =
      l.filter (fun p => decide (p ∉ E)) := by
  apply List.filter_congr
  intro a ha
  have hax : a ≠ x := fun h => hx (h ▸ ha)
  by_cases haE : a ∈ E <;> simp [List.mem_append, hax, haE]

lemma filter_sat_congr {batch : List Rule} {E E' : List RuleID}
    (l : List RuleID) (h : ∀ p ∈ l, satB batch E' p = satB batch E p) :
    l.filter (fun p => !(satB batch E' p)) =
      l.filter (fun p => !(satB batch E p)) := by
  apply List.filter_congr
  intro a ha
  rw [h a ha]

lemma filter_sat_snoc_true {batch : List Rule} {E : List RuleID} {q : RuleID}
    (hq : satB batch (E ++ [q]) q = true) (l : List RuleID) :
    (l.filter (fun p => !(satB batch E p))).filter (fun p => p != q) =
      l.filter (fun p => !(satB batch (E ++ [q]) p)) := by
  rw [List.filter_filter]
  apply List.filter_congr
  intro a _
  by_cases haq : a = q
  · subst haq; simp [hq]
  · rw [satB_snoc_ne haq]; simp [haq]

/- ===================================================================
   Structural lemmas about clone, remove, and the sorters a batch builds.
   =================================================================== -/

lemma clone_eq (r : RuleSorter) : r.clone = r := by
  cases r with
  | mk rules edges => simp [RuleSorter.clone]

lemma remove_rules (r : RuleSorter) (id : RuleID) :
    (r.remove id).rules = r.rules := rfl

lemma remove_edges (r : RuleSorter) (id : RuleID) :
    (r.remove id).edges =
      eraseAll (r.edges.filter (fun p => p.1 != id)) (r.getDependents id) id :=
  rfl

lemma getDependents_eq_depsOf {batch : List Rule} {r : RuleSorter}
    (h : r.rules = rulesMap batch) (id : RuleID) :
    r.getDependents id = depsOf batch id := by
  unfold RuleSorter.getDependents depsOf
  rw [h]

/- ===================================================================
   The pop step under the evaluation invariant.
   =================================================================== -/

lemma pop_data {batch : List Rule} {st : EvalState} {ru : Rule}
    {s' : RuleSorter} (hnd : (batch.map Rule.ID).Nodup)
    (hinv : EvalInv batch st)
    (h : st.sorter.popNextAvailable = some (ru, s')) :
    (ru.ID, ru) ∈ rulesMap batch ∧ ru.ID ∉ st.evaluated ∧
      (∀ p ∈ ru.Prereqs, p ∈ st.evaluated) ∧
      (ru.ID, ([] : List RuleID)) ∈ st.sorter.edges ∧
      s'.rules = rulesMap batch ∧
      s'.edges = (eraseAll st.sorter.edges (depsOf batch ru.ID) ru.ID).filter
        (fun p => p.1 != ru.ID) := by
  rcases popNextAvailable_some_spec h with ⟨ruleId, hmem, hru, hrules, hedges⟩
  rcases hinv.pend ruleId [] hmem with ⟨ru0, hru0, hnil⟩
  have hruleOf : ruleOf st.sorter.rules ruleId = ru0 := by
    rw [hinv.rules_eq]; exact ruleOf_eq hnd hru0
  have hrueq : ru = ru0 := by rw [hru, hruleOf]
  subst hrueq
  have hid : ruleId = ru.ID := (mem_rulesMap.mp hru0).2
  subst hid
  have hpre : ∀ p ∈ ru.Prereqs, p ∈ st.evaluated := by
    intro p hp
    by_contra hpe
    have : p ∈ ru.Prereqs.filter (fun p => decide (p ∉ st.evaluated)) :=
      List.mem_filter.mpr ⟨hp, by simpa using hpe⟩
    rw [← hnil] at this
    cases this
  have hnotev : ru.ID ∉ st.evaluated := by
    intro hev
    exact hinv.eval_keys ru.ID hev [] hmem
  refine ⟨hru0, hnotev, hpre, hmem, by rw [hrules, hinv.rules_eq], ?_⟩
  rw [hedges, getDependents_eq_depsOf hinv.rules_eq]

lemma pop_pend_s' {batch : List Rule} {st : EvalState} {ru : Rule}
    {s' : RuleSorter} (hnd : (batch.map Rule.ID).Nodup)
    (hinv : EvalInv batch st)
    (h : st.sorter.popNextAvailable = some (ru, s')) :
    ∀ d pd, (d, pd) ∈ s'.edges → d ≠ ru.ID ∧
      ∃ rud, (d, rud) ∈ rulesMap batch ∧
        pd = rud.Prereqs.filter
          (fun p => decide (p ∉ st.evaluated ++ [ru.ID])) := by
  rcases pop_data hnd hinv h with ⟨_, _, _, _, _, hedges⟩
  intro d pd hdp
  rw [hedges] at hdp
  have hsplit := List.mem_filter.mp hdp
  have hdne : d ≠ ru.ID := by simpa using hsplit.2
  rcases mem_eraseAll hsplit.1 with ⟨pend0, hpend0, hcases⟩
  rcases hinv.pend d pend0 hpend0 with ⟨rud, hrud, hpe⟩
  refine ⟨hdne, rud, hrud, ?_⟩
  rcases hcases with ⟨hdeps, rfl⟩ | ⟨hdeps, rfl⟩
  · rw [hpe, filter_pending_snoc]
  · have hnotpre : ru.ID ∉ rud.Prereqs := not_direct_dep hrud hdeps
    rw [hpe, filter_pending_snoc_of_not_mem _ _ _ hnotpre]

lemma pop_eval_closed {batch : List Rule} {st : EvalState} {ru : Rule}
    (hnd : (batch.map Rule.ID).Nodup) (hinv : EvalInv batch st)
    (hru : (ru.ID, ru) ∈ rulesMap batch)
    (hpre : ∀ p ∈ ru.Prereqs, p ∈ st.evaluated) :
    ∀ ru' ∈ batch, ru'.ID ∈ st.evaluated ++ [ru.ID] →
      ∀ p ∈ ru'.Prereqs, p ∈ st.evaluated ++ [ru.ID] := by
  intro ru' hru' hid p hp
  rcases List.mem_append.mp hid with hold | hnew
  · exact List.mem_append_left _ (hinv.eval_closed ru' hru' hold p hp)
  · have hid' : ru'.ID = ru.ID := by simpa using hnew
    have hmem' : (ru.ID, ru') ∈ rulesMap batch :=
      mem_rulesMap.mpr ⟨hru', hid'.symm⟩
    have : ru' = ru := rulesMap_unique hnd hmem' hru
    subst this
    exact List.mem_append_left _ (hpre p hp)

lemma pop_key_of_mem_s' {batch : List Rule} {st : EvalState} {ru : Rule}
    {s' : RuleSorter} (hnd : (batch.map Rule.ID).Nodup)
    (hinv : EvalInv batch st)
    (h : st.sorter.popNextAvailable = some (ru, s')) :
    ∀ d pd, (d, pd) ∈ s'.edges → ∃ pend0, (d, pend0) ∈ st.sorter.edges := by
  rcases pop_data hnd hinv h with ⟨_, _, _, _, _, hedges⟩
  intro d pd hdp
  rw [hedges] at hdp
  rcases mem_eraseAll (List.mem_filter.mp hdp).1 with ⟨pend0, hpend0, _⟩
  exact ⟨pend0, hpend0⟩

lemma inv_step_true {batch : List Rule} {st : EvalState} {ru : Rule}
    {s' : RuleSorter} (hnd : (batch.map Rule.ID).Nodup)
    (hinv : EvalInv batch st)
    (h : st.sorter.popNextAvailable = some (ru, s'))
    (hc : ru.Condition = true) :
    EvalInv batch
      { sorter := s', fixSorter := st.fixSorter.remove ru.ID,
        results := st.results, evaluated := st.evaluated ++ [ru.ID] } := by
  rcases pop_data hnd hinv h with ⟨hru, hnotev, hpre, _, hrules, _⟩
  have hq_true : satB batch (st.evaluated ++ [ru.ID]) ru.ID = true :=
    satB_snoc_true hnd hru hc
  have hfix_edges : (st.fixSorter.remove ru.ID).edges =
      eraseAll (st.fixSorter.edges.filter (fun p => p.1 != ru.ID))
        (depsOf batch ru.ID) ru.ID := by
    rw [remove_edges, getDependents_eq_depsOf hinv.fixRules_eq]
  refine ⟨hrules, by rw [remove_rules, hinv.fixRules_eq], ?_, ?_, ?_, ?_, ?_, ?_⟩
  · -- pend
    intro d pd hdp
    exact (pop_pend_s' hnd hinv h d pd hdp).2
  · -- eval_mem
    intro id hid
    rcases List.mem_append.mp hid with hold | hnew
    · exact hinv.eval_mem id hold
    · have : id = ru.ID := by simpa using hnew
      exact ⟨ru, this ▸ hru⟩
  · -- eval_keys
    intro id hid pd hdp
    rcases List.mem_append.mp hid with hold | hnew
    · rcases pop_key_of_mem_s' hnd hinv h id pd hdp with ⟨pend0, hpend0⟩
      exact hinv.eval_keys id hold pend0 hpend0
    · have hidq : id = ru.ID := by simpa using hnew
      exact (pop_pend_s' hnd hinv h id pd hdp).1 hidq
  · -- eval_closed
    exact pop_eval_closed hnd hinv hru hpre
  · -- fix_keys
    intro d pd hdp
    simp only [hfix_edges] at hdp
    rcases mem_eraseAll hdp with ⟨pend0, hpend0, hcases⟩
    have hsplit := List.mem_filter.mp hpend0
    have hdne : d ≠ ru.ID := by simpa using hsplit.2
    rcases hinv.fix_keys d pend0 hsplit.1 with ⟨rud, hrud, hsatd, hpe⟩
    refine ⟨rud, hrud, by rw [satB_snoc_ne hdne]; exact hsatd, ?_⟩
    rcases hcases with ⟨_, rfl⟩ | ⟨hdeps, rfl⟩
    · rw [hpe, filter_sat_snoc_true hq_true]
    · have hnotpre : ru.ID ∉ rud.Prereqs := not_direct_dep hrud hdeps
      rw [hpe]
      symm
      apply filter_sat_congr
      intro p hp
      have : p ≠ ru.ID := fun he => hnotpre (he ▸ hp)
      exact satB_snoc_ne this
  · -- fix_complete
    intro d rud hmemd hsatd'
    have hdne : d ≠ ru.ID := by
      intro he
      rw [he, hq_true] at hsatd'
      cases hsatd'
    have hsatd : satB batch st.evaluated d = false := by
      rw [← satB_snoc_ne hdne]
      exact hsatd'
    have hold := hinv.fix_complete d rud hmemd hsatd
    have hfil : (d, rud.Prereqs.filter
        (fun p => !(satB batch st.evaluated p))) ∈
        st.fixSorter.edges.filter (fun p => p.1 != ru.ID) :=
      List.mem_filter.mpr ⟨hold, by simpa using hdne⟩
    have himg := @mem_eraseAll_of_mem
      (st.fixSorter.edges.filter (fun p => p.1 != ru.ID))
      (depsOf batch ru.ID) ru.ID d
      (rud.Prereqs.filter (fun p => !(satB batch st.evaluated p))) hfil
    simp only [hfix_edges]
    by_cases hdeps : d ∈ depsOf batch ru.ID
    · rw [if_pos hdeps] at himg
      rw [filter_sat_snoc_true hq_true] at himg
      exact himg
    · rw [if_neg hdeps] at himg
      have hnotpre : ru.ID ∉ rud.Prereqs := not_direct_dep hmemd hdeps
      have hcong : rud.Prereqs.filter
          (fun p => !(satB batch (st.evaluated ++ [ru.ID]) p)) =
          rud.Prereqs.filter (fun p => !(satB batch st.evaluated p)) := by
        apply filter_sat_congr
        intro p hp
        have : p ≠ ru.ID := fun he => hnotpre (he ▸ hp)
        exact satB_snoc_ne this
      rw [hcong]
      exact himg

lemma inv_step_false {batch : List Rule} {st : EvalState} {ru : Rule}
    {s' : RuleSorter} (rs : List YamlDerivedResource)
    (hnd : (batch.map Rule.ID).Nodup) (hinv : EvalInv batch st)
    (h : st.sorter.popNextAvailable = some (ru, s'))
    (hc : ru.Condition = false) :
    EvalInv batch
      { sorter := (s'.popDependentRules ru.ID).2, fixSorter := st.fixSorter,
        results := st.results ++ [mkResult rs ru] ++
          (s'.popDependentRules ru.ID).1.map (mkResult rs),
        evaluated := st.evaluated ++ [ru.ID] } := by
  rcases pop_data hnd hinv h with ⟨hru, hnotev, hpre, _, hrules, _⟩
  have hsat_eq : ∀ p, satB batch (st.evaluated ++ [ru.ID]) p =
      satB batch st.evaluated p := satB_snoc_false hnd hru hc
  refine ⟨by rw [popDependentRules_rules, hrules], hinv.fixRules_eq,
    ?_, ?_, ?_, ?_, ?_, ?_⟩
  · -- pend
    intro d pd hdp
    exact (pop_pend_s' hnd hinv h d pd
      (popDependentRules_edges_sub hdp).1).2
  · -- eval_mem
    intro id hid
    rcases List.mem_append.mp hid with hold | hnew
    · exact hinv.eval_mem id hold
    · have : id = ru.ID := by simpa using hnew
      exact ⟨ru, this ▸ hru⟩
  · -- eval_keys
    intro id hid pd hdp
    have hdp' := (popDependentRules_edges_sub hdp).1
    rcases List.mem_append.mp hid with hold | hnew
    · rcases pop_key_of_mem_s' hnd hinv h id pd hdp' with ⟨pend0, hpend0⟩
      exact hinv.eval_keys id hold pend0 hpend0
    · have hidq : id = ru.ID := by simpa using hnew
      exact (pop_pend_s' hnd hinv h id pd hdp').1 hidq
  · -- eval_closed
    exact pop_eval_closed hnd hinv hru hpre
  · -- fix_keys
    intro d pd hdp
    rcases hinv.fix_keys d pd hdp with ⟨rud, hrud, hsatd, hpe⟩
    refine ⟨rud, hrud, by rw [hsat_eq]; exact hsatd, ?_⟩
    rw [hpe]
    symm
    exact filter_sat_congr _ (fun p _ => hsat_eq p)
  · -- fix_complete
    intro d rud hmemd hsatd'
    rw [hsat_eq] at hsatd'
    have hold := hinv.fix_complete d rud hmemd hsatd'
    have hcong : rud.Prereqs.filter
        (fun p => !(satB batch (st.evaluated ++ [ru.ID]) p)) =
        rud.Prereqs.filter (fun p => !(satB batch st.evaluated p)) :=
      filter_sat_congr _ (fun p _ => hsat_eq p)
    rw [hcong]
    exact hold

/- ===================================================================
   The evaluation loop: invariant at the start, preservation along the
   run, and the cascade kernel.
   =================================================================== -/

lemma isEmpty_iff_edges_nil {r : RuleSorter} :
    r.isEmpty = true ↔ r.edges = [] := by
  simp [RuleSorter.isEmpty, List.isEmpty_iff]

lemma initEvalState_inv {batch : List Rule}
    (hnd : (batch.map Rule.ID).Nodup) : EvalInv batch (initEvalState batch) := by
  have hsat : ∀ p, satB batch ([] : List RuleID) p = false := fun p =>
    satB_false_of_not_mem (List.not_mem_nil p)
  show EvalInv batch
    { sorter := newRuleSorter batch, fixSorter := (newRuleSorter batch).clone,
      results := [], evaluated := [] }
  rw [clone_eq]
  refine ⟨rfl, rfl, ?_, ?_, ?_, ?_, ?_, ?_⟩
  · -- pend
    intro d pend hdp
    rcases List.mem_map.mp hdp with ⟨r, hr, heq⟩
    cases heq
    refine ⟨r, mem_rulesMap.mpr ⟨hr, rfl⟩, ?_⟩
    symm
    apply List.filter_eq_self.mpr
    intro p _
    simp
  · intro id hid; cases hid
  · intro id hid; cases hid
  · intro ru _ hid; cases hid
  · -- fix_keys
    intro d pend hdp
    rcases List.mem_map.mp hdp with ⟨r, hr, heq⟩
    cases heq
    refine ⟨r, mem_rulesMap.mpr ⟨hr, rfl⟩, hsat _, ?_⟩
    symm
    apply List.filter_eq_self.mpr
    intro p _
    rw [hsat p]
    rfl
  · -- fix_complete
    intro d ru hmem _
    rcases mem_rulesMap.mp hmem with ⟨hru, rfl⟩
    have : ru.Prereqs.filter (fun p => !(satB batch ([] : List RuleID) p)) =
        ru.Prereqs := by
      apply List.filter_eq_self.mpr
      intro p _
      rw [hsat p]
      rfl
    show (ru.ID, ru.Prereqs.filter (fun p => !(satB batch [] p))) ∈
      (newRuleSorter batch).edges
    rw [this]
    exact List.mem_map_of_mem (fun r => (r.ID, r.Prereqs)) hru

lemma chain_eval {batch : List Rule} {E : List RuleID}
    (hclosed : ∀ ru ∈ batch, ru.ID ∈ E → ∀ p ∈ ru.Prereqs, p ∈ E) :
    ∀ f m d, d ∈ getDependentsAux (rulesMap batch) f m → d ∈ E → m ∈ E := by
  intro f
  induction f with
  | zero => intro m d h; cases h
  | succ f ih =>
      intro m d h hdE
      rcases mem_getDependentsAux_succ_elim h with ⟨id0, ru0, hmem, hpre, hcase⟩
      rcases mem_rulesMap.mp hmem with ⟨hru0, rfl⟩
      rcases hcase with rfl | hrec
      · exact hclosed ru0 hru0 hdE _ hpre
      · exact hclosed ru0 hru0 (ih ru0.ID d hrec hdE) _ hpre

lemma runEvalFuel_main {batch : List Rule} {rs : List YamlDerivedResource}
    (hnd : (batch.map Rule.ID).Nodup) :
    ∀ fuel (st stE : EvalState), EvalInv batch st →
      runEvalFuel rs fuel st = .ok stE →
      EvalInv batch stE ∧ stE.sorter.edges = [] ∧
      (∀ res ∈ st.results, res ∈ stE.results) ∧
      (∀ id ∈ st.evaluated, id ∈ stE.evaluated) ∧
      (∀ id ∈ stE.evaluated,
        id ∈ st.evaluated ∨ ∃ pend, (id, pend) ∈ st.sorter.edges) := by
  intro fuel
  induction fuel with
  | zero =>
      intro st stE hinv h
      simp only [runEvalFuel] at h
      by_cases he : st.sorter.isEmpty
      · rw [if_pos he] at h
        cases h
        exact ⟨hinv, isEmpty_iff_edges_nil.mp he, fun _ hr => hr,
          fun _ hi => hi, fun id hi => Or.inl hi⟩
      · rw [if_neg he] at h
        cases h
  | succ fuel ih =>
      intro st stE hinv h
      simp only [runEvalFuel] at h
      by_cases he : st.sorter.isEmpty
      · rw [if_pos he] at h
        cases h
        exact ⟨hinv, isEmpty_iff_edges_nil.mp he, fun _ hr => hr,
          fun _ hi => hi, fun id hi => Or.inl hi⟩
      · rw [if_neg he] at h
        cases hp : st.sorter.popNextAvailable with
        | none => rw [hp] at h; cases h
        | some pr =>
            rw [hp] at h
            cases pr with
            | mk ru s' =>
                dsimp only at h
                rcases pop_data hnd hinv hp with
                  ⟨hru, hnotev, hpre, hready, hrules, _⟩
                by_cases hc : ru.Condition
                · rw [if_pos hc] at h
                  have hinv' := inv_step_true hnd hinv hp hc
                  rcases ih _ _ hinv' h with ⟨hi1, hi2, hi3, hi4, hi5⟩
                  refine ⟨hi1, hi2, fun res hr => hi3 res hr, ?_, ?_⟩
                  · intro id hid
                    exact hi4 id (List.mem_append_left _ hid)
                  · intro id hid
                    rcases hi5 id hid with hold | ⟨pend, hpend⟩
                    · rcases List.mem_append.mp hold with h1 | h2
                      · exact Or.inl h1
                      · have : id = ru.ID := by simpa using h2
                        exact Or.inr ⟨[], this ▸ hready⟩
                    · rcases pop_key_of_mem_s' hnd hinv hp id pend hpend with
                        ⟨pend0, hpend0⟩
                      exact Or.inr ⟨pend0, hpend0⟩
                · rw [if_neg hc] at h
                  have hcf : ru.Condition = false := by
                    simpa using hc
                  have hinv' := inv_step_false rs hnd hinv hp hcf
                  rcases ih _ _ hinv' h with ⟨hi1, hi2, hi3, hi4, hi5⟩
                  refine ⟨hi1, hi2, ?_, ?_, ?_⟩
                  · intro res hr
                    exact hi3 res (by
                      apply List.mem_append_left
                      exact List.mem_append_left _ hr)
                  · intro id hid
                    exact hi4 id (List.mem_append_left _ hid)
                  · intro id hid
                    rcases hi5 id hid with hold | ⟨pend, hpend⟩
                    · rcases List.mem_append.mp hold with h1 | h2
                      · exact Or.inl h1
                      · have : id = ru.ID := by simpa using h2
                        exact Or.inr ⟨[], this ▸ hready⟩
                    · have hpend' := (popDependentRules_edges_sub hpend).1
                      rcases pop_key_of_mem_s' hnd hinv hp id pend hpend' with
                        ⟨pend0, hpend0⟩
                      exact Or.inr ⟨pend0, hpend0⟩

lemma eval_kernel {batch : List Rule} {rs : List YamlDerivedResource}
    (hv : ValidBatch batch) :
    ∀ fuel (st stE : EvalState), EvalInv batch st →
      runEvalFuel rs fuel st = .ok stE →
      ∀ ru ∈ batch, ru.Condition = false → ru.ID ∈ stE.evaluated →
        ru.ID ∉ st.evaluated →
      ∀ d ∈ depsOf batch ru.ID,
        d ∉ stE.evaluated ∧
        mkResult rs (ruleOf (rulesMap batch) d) ∈ stE.results := by
  have hnd := hv.1
  intro fuel
  induction fuel with
  | zero =>
      intro st stE hinv h ru _ _ hin hnotin d _
      simp only [runEvalFuel] at h
      by_cases he : st.sorter.isEmpty
      · rw [if_pos he] at h
        cases h
        exact absurd hin hnotin
      · rw [if_neg he] at h
        cases h
  | succ fuel ih =>
      intro st stE hinv h ru hru hcond hin hnotin d hd
      simp only [runEvalFuel] at h
      by_cases he : st.sorter.isEmpty
      · rw [if_pos he] at h
        cases h
        exact absurd hin hnotin
      · rw [if_neg he] at h
        cases hp : st.sorter.popNextAvailable with
        | none => rw [hp] at h; cases h
        | some pr =>
            rw [hp] at h
            cases pr with
            | mk q s' =>
                dsimp only at h
                rcases pop_data hnd hinv hp with
                  ⟨hq, hqnotev, hqpre, hqready, hqrules, _⟩
                by_cases hqid : q.ID = ru.ID
                · -- the popped rule is the failing rule itself
                  have hqru : q = ru :=
                    rulesMap_unique hnd (hqid ▸ hq)
                      (mem_rulesMap.mpr ⟨hru, rfl⟩)
                  subst hqru
                  rw [if_neg (by rw [hcond]; exact Bool.false_ne_true)] at h
                  -- the cascade list is exactly depsOf
                  have hdeps_eq : q.ID ∈ depsOf batch q.ID → False := fun hx =>
                    hv.2 q hru hx
                  have hdeps_ids :
                      ((s'.popDependentRules q.ID).1).map Rule.ID =
                        depsOf batch q.ID := by
                    show ((s'.getDependents q.ID).filterMap
                      (fun id => lookupAL s'.rules id)).map Rule.ID = _
                    rw [getDependents_eq_depsOf hqrules, hqrules]
                    exact depsRules_map_ID hnd _
                      (fun x hx => exists_of_mem_getDependentsAux hx)
                  have hdnotE : d ∉ st.evaluated := by
                    intro hdE
                    exact hnotin (chain_eval
                      (fun r hr hid p hp => hinv.eval_closed r hr hid p hp)
                      _ q.ID d hd hdE)
                  have hdne : d ≠ q.ID := by
                    intro hde
                    exact hdeps_eq (hde ▸ hd)
                  -- after the cascade d is out of the edges for good
                  have hdgone : ∀ pend,
                      (d, pend) ∉ (s'.popDependentRules q.ID).2.edges := by
                    intro pend hpend
                    have := (popDependentRules_edges_sub hpend).2
                    rw [hdeps_ids] at this
                    exact this hd
                  have hinv' := inv_step_false rs hnd hinv hp hcond
                  rcases runEvalFuel_main hnd fuel _ stE hinv' h with
                    ⟨_, _, hres_mono, _, hsub⟩
                  constructor
                  · intro hdE'
                    rcases hsub d hdE' with hold | ⟨pend, hpend⟩
                    · rcases List.mem_append.mp hold with h1 | h2
                      · exact hdnotE h1
                      · exact hdne (by simpa using h2)
                    · exact hdgone pend hpend
                  · -- the cascade reported d
                    rcases exists_of_mem_getDependentsAux hd with ⟨rud, hrud⟩
                    have hlook : lookupAL (rulesMap batch) d = some rud :=
                      lookupAL_of_mem (rulesMap_keys_nodup hnd) hrud
                    have hrud_mem : rud ∈ (s'.popDependentRules q.ID).1 := by
                      show rud ∈ (s'.getDependents q.ID).filterMap
                        (fun id => lookupAL s'.rules id)
                      rw [getDependents_eq_depsOf hqrules, hqrules]
                      exact List.mem_filterMap.mpr ⟨d, hd, hlook⟩
                    have hres : mkResult rs (ruleOf (rulesMap batch) d) ∈
                        (s'.popDependentRules q.ID).1.map (mkResult rs) := by
                      have : ruleOf (rulesMap batch) d = rud := ruleOf_eq hnd hrud
                      rw [this]
                      exact List.mem_map_of_mem _ hrud_mem
                    apply hres_mono
                    show mkResult rs (ruleOf (rulesMap batch) d) ∈
                      st.results ++ [mkResult rs q] ++
                        (s'.popDependentRules q.ID).1.map (mkResult rs)
                    exact List.mem_append_right _ hres
                · -- a different rule was popped; recurse
                  have hnotin' : ru.ID ∉ st.evaluated ++ [q.ID] := by
                    intro hmem
                    rcases List.mem_append.mp hmem with h1 | h2
                    · exact hnotin h1
                    · have hre : ru.ID = q.ID := by simpa using h2
                      exact hqid hre.symm
                  by_cases hcq : q.Condition
                  · rw [if_pos hcq] at h
                    exact ih _ _ (inv_step_true hnd hinv hp hcq) h ru hru hcond
                      hin hnotin' d hd
                  · rw [if_neg hcq] at h
                    have hcqf : q.Condition = false := by simpa using hcq
                    exact ih _ _ (inv_step_false rs hnd hinv hp hcqf) h
                      ru hru hcond hin hnotin' d hd

/- ===================================================================
   Generic facts about popping, independent of any invariant.
   =================================================================== -/

lemma pop_edges_key_sub {r : RuleSorter} {ru : Rule} {s' : RuleSorter}
    (h : r.popNextAvailable = some (ru, s')) :
    ∀ d pd, (d, pd) ∈ s'.edges → ∃ pend0, (d, pend0) ∈ r.edges := by
  rcases popNextAvailable_some_spec h with ⟨ruleId, _, _, _, hedges⟩
  intro d pd hdp
  rw [hedges] at hdp
  rcases mem_eraseAll (List.mem_filter.mp hdp).1 with ⟨pend0, hpend0, _⟩
  exact ⟨pend0, hpend0⟩

lemma pop_keyCoherent {r : RuleSorter} {ru : Rule} {s' : RuleSorter}
    (hco : KeyCoherent r) (h : r.popNextAvailable = some (ru, s')) :
    KeyCoherent s' := by
  rcases popNextAvailable_some_spec h with ⟨ruleId, _, _, hrules, _⟩
  intro p hp
  rcases pop_edges_key_sub h p.1 p.2 (by simpa using hp) with ⟨pend0, hpend0⟩
  rw [hrules]
  exact hco (p.1, pend0) hpend0

lemma popDeps_keyCoherent {r : RuleSorter} (masterId : RuleID)
    (hco : KeyCoherent r) : KeyCoherent (r.popDependentRules masterId).2 := by
  intro p hp
  have hp' : (p.1, p.2) ∈ (r.popDependentRules masterId).2.edges := by
    simpa using hp
  have := (popDependentRules_edges_sub hp').1
  rw [popDependentRules_rules]
  exact hco (p.1, p.2) this

lemma pop_id_coherent {r : RuleSorter} {ru : Rule} {s' : RuleSorter}
    (hco : KeyCoherent r) (h : r.popNextAvailable = some (ru, s')) :
    ∃ ruleId, ru = ruleOf r.rules ruleId ∧ ru.ID = ruleId ∧
      (ruleId, ([] : List RuleID)) ∈ r.edges := by
  rcases popNextAvailable_some_spec h with ⟨ruleId, hready, hru, _, _⟩
  exact ⟨ruleId, hru, by rw [hru]; exact hco (ruleId, []) hready, hready⟩

/-- The attempt trace of a fix run grows at the tail, every new entry was
an edges key at the start, and an ok run ends with empty edges. -/
lemma runFixFuel_att_sub :
    ∀ (fuel : Nat) (fs fsF : FixState), KeyCoherent fs.sorter →
      runFixFuel fuel fs = .ok fsF →
      (∀ id ∈ fs.attempted, id ∈ fsF.attempted) ∧
      (∀ id ∈ fsF.attempted,
        id ∈ fs.attempted ∨ ∃ pend, (id, pend) ∈ fs.sorter.edges) ∧
      fsF.sorter.edges = [] := by
  intro fuel
  induction fuel with
  | zero =>
      intro fs fsF _ h
      simp only [runFixFuel] at h
      by_cases he : fs.sorter.isEmpty
      · rw [if_pos he] at h
        cases h
        exact ⟨fun _ hi => hi, fun id hi => Or.inl hi, isEmpty_iff_edges_nil.mp he⟩
      · rw [if_neg he] at h
        cases h
  | succ fuel ih =>
      intro fs fsF hco h
      simp only [runFixFuel] at h
      by_cases he : fs.sorter.isEmpty
      · rw [if_pos he] at h
        cases h
        exact ⟨fun _ hi => hi, fun id hi => Or.inl hi, isEmpty_iff_edges_nil.mp he⟩
      · rw [if_neg he] at h
        cases hp : fs.sorter.popNextAvailable with
        | none => rw [hp] at h; cases h
        | some pr =>
            rw [hp] at h
            cases pr with
            | mk q s' =>
                dsimp only at h
                rcases pop_id_coherent hco hp with ⟨ruleId, _, hqid, hready⟩
                have hco' : KeyCoherent s' := pop_keyCoherent hco hp
                by_cases hf : q.Fix
                · rw [if_pos hf] at h
                  rcases ih _ _ hco' h with ⟨h1, h2, h3⟩
                  refine ⟨?_, ?_, h3⟩
                  · intro id hid
                    exact h1 id (List.mem_append_left _ hid)
                  · intro id hid
                    rcases h2 id hid with hold | ⟨pend, hpend⟩
                    · rcases List.mem_append.mp hold with ha | hb
                      · exact Or.inl ha
                      · have : id = q.ID := by simpa using hb
                        exact Or.inr ⟨[], by rw [this, hqid]; exact hready⟩
                    · rcases pop_edges_key_sub hp id pend hpend with ⟨pend0, h0⟩
                      exact Or.inr ⟨pend0, h0⟩
                · rw [if_neg hf] at h
                  have hco'' : KeyCoherent (s'.popDependentRules q.ID).2 :=
                    popDeps_keyCoherent _ hco'
                  rcases ih _ _ hco'' h with ⟨h1, h2, h3⟩
                  refine ⟨?_, ?_, h3⟩
                  · intro id hid
                    exact h1 id (List.mem_append_left _ hid)
                  · intro id hid
                    rcases h2 id hid with hold | ⟨pend, hpend⟩
                    · rcases List.mem_append.mp hold with ha | hb
                      · exact Or.inl ha
                      · have : id = q.ID := by simpa using hb
                        exact Or.inr ⟨[], by rw [this, hqid]; exact hready⟩
                    · have hpend' := (popDependentRules_edges_sub hpend).1
                      rcases pop_edges_key_sub hp id pend hpend' with ⟨pend0, h0⟩
                      exact Or.inr ⟨pend0, h0⟩

/-- An ok fix run appends, in pop order, exactly the FixDescriptions of
the attempted rules whose Fix returned true. -/
lemma runFixFuel_trace :
    ∀ (fuel : Nat) (fs fsF : FixState), KeyCoherent fs.sorter →
      runFixFuel fuel fs = .ok fsF →
      fsF.sorter.rules = fs.sorter.rules ∧
      ∃ t, fsF.attempted = fs.attempted ++ t ∧
        fsF.descriptions = fs.descriptions ++ descOfTrace fs.sorter.rules t := by
  intro fuel
  induction fuel with
  | zero =>
      intro fs fsF _ h
      simp only [runFixFuel] at h
      by_cases he : fs.sorter.isEmpty
      · rw [if_pos he] at h
        cases h
        exact ⟨rfl, [], by simp, by simp [descOfTrace]⟩
      · rw [if_neg he] at h
        cases h
  | succ fuel ih =>
      intro fs fsF hco h
      simp only [runFixFuel] at h
      by_cases he : fs.sorter.isEmpty
      · rw [if_pos he] at h
        cases h
        exact ⟨rfl, [], by simp, by simp [descOfTrace]⟩
      · rw [if_neg he] at h
        cases hp : fs.sorter.popNextAvailable with
        | none => rw [hp] at h; cases h
        | some pr =>
            rw [hp] at h
            cases pr with
            | mk q s' =>
                dsimp only at h
                rcases pop_id_coherent hco hp with ⟨ruleId, hqrule, hqid, _⟩
                rcases popNextAvailable_some_spec hp with ⟨_, _, _, hrules, _⟩
                have hco' : KeyCoherent s' := pop_keyCoherent hco hp
                have hqlook : ruleOf fs.sorter.rules q.ID = q := by
                  rw [hqid, ← hqrule]
                by_cases hf : q.Fix
                · rw [if_pos hf] at h
                  rcases ih _ _ hco' h with ⟨h1, t, ht, hd⟩
                  refine ⟨by rw [h1, hrules], q.ID :: t, ?_, ?_⟩
                  · rw [ht]; simp
                  · rw [hd, hrules]
                    have : descOfTrace fs.sorter.rules (q.ID :: t) =
                        q.FixDescription :: descOfTrace fs.sorter.rules t := by
                      unfold descOfTrace
                      rw [List.filter_cons_of_pos (by rw [hqlook]; exact hf)]
                      rw [List.map_cons, hqlook]
                    rw [this]
                    simp
                · rw [if_neg hf] at h
                  have hco'' : KeyCoherent (s'.popDependentRules q.ID).2 :=
                    popDeps_keyCoherent _ hco'
                  rcases ih _ _ hco'' h with ⟨h1, t, ht, hd⟩
                  refine ⟨by rw [h1, popDependentRules_rules, hrules],
                    q.ID :: t, ?_, ?_⟩
                  · rw [ht]; simp
                  · rw [hd, popDependentRules_rules, hrules]
                    have : descOfTrace fs.sorter.rules (q.ID :: t) =
                        descOfTrace fs.sorter.rules t := by
                      unfold descOfTrace
                      rw [List.filter_cons_of_neg (by
                        rw [hqlook]
                        simpa using hf)]
                    rw [this]

/- ===================================================================
   The fix loop under the fix invariant.
   =================================================================== -/

lemma filter_fix_snoc (l : List RuleID) (S : RuleID → Bool)
    (att : List RuleID) (x : RuleID) :
    (l.filter (fun p => !(S p) && decide (p ∉ att))).filter (fun p => p != x) =
      l.filter (fun p => !(S p) && decide (p ∉ att ++ [x])) := by
  rw [List.filter_filter]
  apply List.filter_congr
  intro a _
  by_cases hax : a = x
  · subst hax; simp [List.mem_append]
  · by_cases haA : a ∈ att <;> simp [List.mem_append, hax, haA]

lemma filter_fix_snoc_of_not_mem (l : List RuleID) (S : RuleID → Bool)
    (att : List RuleID) (x : RuleID) (hx : x ∉ l) :
    l.filter (fun p => !(S p) && decide (p ∉ att ++ [x])) =
      l.filter (fun p => !(S p) && decide (p ∉ att)) := by
  apply List.filter_congr
  intro a ha
  have hax : a ≠ x := fun h => hx (h ▸ ha)
  by_cases haA : a ∈ att <;> simp [List.mem_append, hax, haA]

lemma pop_data_fix {batch : List Rule} {E : List RuleID} {fs : FixState}
    {ru : Rule} {s' : RuleSorter} (hnd : (batch.map Rule.ID).Nodup)
    (hinv : FixInv batch E fs)
    (h : fs.sorter.popNextAvailable = some (ru, s')) :
    (ru.ID, ru) ∈ rulesMap batch ∧ satB batch E ru.ID = false ∧
      ru.ID ∉ fs.attempted ∧
      (∀ p ∈ ru.Prereqs, satB batch E p = true ∨ p ∈ fs.attempted) ∧
      (ru.ID, ([] : List RuleID)) ∈ fs.sorter.edges ∧
      s'.rules = rulesMap batch ∧
      s'.edges = (eraseAll fs.sorter.edges (depsOf batch ru.ID) ru.ID).filter
        (fun p => p.1 != ru.ID) := by
  rcases popNextAvailable_some_spec h with ⟨ruleId, hmem, hru, hrules, hedges⟩
  rcases hinv.pend ruleId [] hmem with ⟨ru0, hru0, hsat0, hnil⟩
  have hruleOf : ruleOf fs.sorter.rules ruleId = ru0 := by
    rw [hinv.rules_eq]; exact ruleOf_eq hnd hru0
  have hrueq : ru = ru0 := by rw [hru, hruleOf]
  subst hrueq
  have hid : ruleId = ru.ID := (mem_rulesMap.mp hru0).2
  subst hid
  have hpre : ∀ p ∈ ru.Prereqs, satB batch E p = true ∨ p ∈ fs.attempted := by
    intro p hp
    by_contra hpe
    push_neg at hpe
    have hmemf : p ∈ ru.Prereqs.filter
        (fun p => !(satB batch E p) && decide (p ∉ fs.attempted)) :=
      List.mem_filter.mpr ⟨hp, by
        simp only [Bool.and_eq_true, Bool.not_eq_true', decide_eq_true_eq]
        exact ⟨by simpa using hpe.1, hpe.2⟩⟩
    rw [← hnil] at hmemf
    cases hmemf
  have hnotatt : ru.ID ∉ fs.attempted := by
    intro hatt
    exact hinv.att_keys ru.ID hatt [] hmem
  refine ⟨hru0, hsat0, hnotatt, hpre, hmem, by rw [hrules, hinv.rules_eq], ?_⟩
  rw [hedges, getDependents_eq_depsOf hinv.rules_eq]

lemma pop_pend_fix_s' {batch : List Rule} {E : List RuleID} {fs : FixState}
    {ru : Rule} {s' : RuleSorter} (hnd : (batch.map Rule.ID).Nodup)
    (hinv : FixInv batch E fs)
    (h : fs.sorter.popNextAvailable = some (ru, s')) :
    ∀ d pd, (d, pd) ∈ s'.edges → d ≠ ru.ID ∧
      ∃ rud, (d, rud) ∈ rulesMap batch ∧ satB batch E d = false ∧
        pd = rud.Prereqs.filter
          (fun p => !(satB batch E p) &&
            decide (p ∉ fs.attempted ++ [ru.ID])) := by
  rcases pop_data_fix hnd hinv h with ⟨_, _, _, _, _, _, hedges⟩
  intro d pd hdp
  rw [hedges] at hdp
  have hsplit := List.mem_filter.mp hdp
  have hdne : d ≠ ru.ID := by simpa using hsplit.2
  rcases mem_eraseAll hsplit.1 with ⟨pend0, hpend0, hcases⟩
  rcases hinv.pend d pend0 hpend0 with ⟨rud, hrud, hsatd, hpe⟩
  refine ⟨hdne, rud, hrud, hsatd, ?_⟩
  rcases hcases with ⟨_, rfl⟩ | ⟨hdeps, rfl⟩
  · rw [hpe, filter_fix_snoc]
  · have hnotpre : ru.ID ∉ rud.Prereqs := not_direct_dep hrud hdeps
    rw [hpe, filter_fix_snoc_of_not_mem _ _ _ _ hnotpre]

lemma fix_att_closed_step {batch : List Rule} {E : List RuleID}
    {fs : FixState} {ru : Rule} (hnd : (batch.map Rule.ID).Nodup)
    (hru : (ru.ID, ru) ∈ rulesMap batch)
    (hpre : ∀ p ∈ ru.Prereqs, satB batch E p = true ∨ p ∈ fs.attempted)
    (hclosed : ∀ ru' ∈ batch, ru'.ID ∈ fs.attempted →
      ∀ p ∈ ru'.Prereqs, satB batch E p = true ∨ p ∈ fs.attempted) :
    ∀ ru' ∈ batch, ru'.ID ∈ fs.attempted ++ [ru.ID] →
      ∀ p ∈ ru'.Prereqs, satB batch E p = true ∨
        p ∈ fs.attempted ++ [ru.ID] := by
  intro ru' hru' hid p hp
  rcases List.mem_append.mp hid with hold | hnew
  · exact (hclosed ru' hru' hold p hp).imp id (List.mem_append_left _)
  · have hid' : ru'.ID = ru.ID := by simpa using hnew
    have hmem' : (ru.ID, ru') ∈ rulesMap batch :=
      mem_rulesMap.mpr ⟨hru', hid'.symm⟩
    have : ru' = ru := rulesMap_unique hnd hmem' hru
    subst this
    exact (hpre p hp).imp id (List.mem_append_left _)

lemma inv_step_fix_true {batch : List Rule} {E : List RuleID} {fs : FixState}
    {ru : Rule} {s' : RuleSorter} (hnd : (batch.map Rule.ID).Nodup)
    (hinv : FixInv batch E fs)
    (h : fs.sorter.popNextAvailable = some (ru, s')) :
    FixInv batch E
      { sorter := s',
        descriptions := fs.descriptions ++ [ru.FixDescription],
        attempted := fs.attempted ++ [ru.ID] } := by
  rcases pop_data_fix hnd hinv h with ⟨hru, _, _, hpre, _, hrules, _⟩
  refine ⟨hrules, ?_, ?_, fix_att_closed_step hnd hru hpre hinv.att_closed⟩
  · intro d pd hdp
    exact (pop_pend_fix_s' hnd hinv h d pd hdp).2
  · intro id hid pd hdp
    rcases List.mem_append.mp hid with hold | hnew
    · rcases pop_edges_key_sub h id pd hdp with ⟨pend0, hpend0⟩
      exact hinv.att_keys id hold pend0 hpend0
    · have hidq : id = ru.ID := by simpa using hnew
      exact (pop_pend_fix_s' hnd hinv h id pd hdp).1 hidq

lemma inv_step_fix_false {batch : List Rule} {E : List RuleID} {fs : FixState}
    {ru : Rule} {s' : RuleSorter} (hnd : (batch.map Rule.ID).Nodup)
    (hinv : FixInv batch E fs)
    (h : fs.sorter.popNextAvailable = some (ru, s')) :
    FixInv batch E
      { sorter := (s'.popDependentRules ru.ID).2,
        descriptions := fs.descriptions,
        attempted := fs.attempted ++ [ru.ID] } := by
  rcases pop_data_fix hnd hinv h with ⟨hru, _, _, hpre, _, hrules, _⟩
  refine ⟨by rw [popDependentRules_rules, hrules], ?_, ?_,
    fix_att_closed_step hnd hru hpre hinv.att_closed⟩
  · intro d pd hdp
    exact (pop_pend_fix_s' hnd hinv h d pd
      (popDependentRules_edges_sub hdp).1).2
  · intro id hid pd hdp
    have hdp' := (popDependentRules_edges_sub hdp).1
    rcases List.mem_append.mp hid with hold | hnew
    · rcases pop_edges_key_sub h id pd hdp' with ⟨pend0, hpend0⟩
      exact hinv.att_keys id hold pend0 hpend0
    · have hidq : id = ru.ID := by simpa using hnew
      exact (pop_pend_fix_s' hnd hinv h id pd hdp').1 hidq

lemma chain_fix {batch : List Rule} {E A : List RuleID}
    (hsatc : SatClosed batch E)
    (hclosed : ∀ ru ∈ batch, ru.ID ∈ A →
      ∀ p ∈ ru.Prereqs, satB batch E p = true ∨ p ∈ A) :
    ∀ f m d, d ∈ getDependentsAux (rulesMap batch) f m → d ∈ A →
      satB batch E m = true ∨ m ∈ A := by
  intro f
  induction f with
  | zero => intro m d h; cases h
  | succ f ih =>
      intro m d h hdA
      rcases mem_getDependentsAux_succ_elim h with ⟨id0, ru0, hmem, hpre, hcase⟩
      rcases mem_rulesMap.mp hmem with ⟨hru0, rfl⟩
      rcases hcase with rfl | hrec
      · exact hclosed ru0 hru0 hdA _ hpre
      · rcases ih ru0.ID d hrec hdA with hsat | hatt
        · exact Or.inl (hsatc ru0 hru0 hsat _ hpre)
        · exact hclosed ru0 hru0 hatt _ hpre

lemma fixInv_keyCoherent {batch : List Rule} {E : List RuleID}
    {fs : FixState} (hnd : (batch.map Rule.ID).Nodup)
    (hinv : FixInv batch E fs) : KeyCoherent fs.sorter := by
  intro p hp
  rcases hinv.pend p.1 p.2 (by simpa using hp) with ⟨rud, hrud, _, _⟩
  rw [hinv.rules_eq, ruleOf_eq hnd hrud]
  exact (mem_rulesMap.mp hrud).2.symm

lemma fix_kernel {batch : List Rule} {E : List RuleID} (hv : ValidBatch batch)
    (hsatc : SatClosed batch E) :
    ∀ (fuel : Nat) (fs fsF : FixState), FixInv batch E fs →
      runFixFuel fuel fs = .ok fsF →
      ∀ ru ∈ batch, ru.Fix = false → ru.ID ∈ fsF.attempted →
        ru.ID ∉ fs.attempted →
      ∀ d ∈ depsOf batch ru.ID, d ∉ fsF.attempted := by
  have hnd := hv.1
  intro fuel
  induction fuel with
  | zero =>
      intro fs fsF _ h ru _ _ hin hnotin d _
      simp only [runFixFuel] at h
      by_cases he : fs.sorter.isEmpty
      · rw [if_pos he] at h
        cases h
        exact absurd hin hnotin
      · rw [if_neg he] at h
        cases h
  | succ fuel ih =>
      intro fs fsF hinv h ru hru hfix hin hnotin d hd
      simp only [runFixFuel] at h
      by_cases he : fs.sorter.isEmpty
      · rw [if_pos he] at h
        cases h
        exact absurd hin hnotin
      · rw [if_neg he] at h
        cases hp : fs.sorter.popNextAvailable with
        | none => rw [hp] at h; cases h
        | some pr =>
            rw [hp] at h
            cases pr with
            | mk q s' =>
                dsimp only at h
                rcases pop_data_fix hnd hinv hp with
                  ⟨hq, hqsat, hqnotatt, hqpre, hqready, hqrules, _⟩
                by_cases hqid : q.ID = ru.ID
                · -- the popped rule is the fix-failing rule itself
                  have hqru : q = ru :=
                    rulesMap_unique hnd (hqid ▸ hq)
                      (mem_rulesMap.mpr ⟨hru, rfl⟩)
                  subst hqru
                  rw [if_neg (by rw [hfix]; exact Bool.false_ne_true)] at h
                  have hdeps_ids :
                      ((s'.popDependentRules q.ID).1).map Rule.ID =
                        depsOf batch q.ID := by
                    show ((s'.getDependents q.ID).filterMap
                      (fun id => lookupAL s'.rules id)).map Rule.ID = _
                    rw [getDependents_eq_depsOf hqrules, hqrules]
                    exact depsRules_map_ID hnd _
                      (fun x hx => exists_of_mem_getDependentsAux hx)
                  have hdnotA : d ∉ fs.attempted := by
                    intro hdA
                    rcases chain_fix hsatc hinv.att_closed _ q.ID d hd hdA with
                      hs | ha
                    · rw [hqsat] at hs; cases hs
                    · exact hqnotatt ha
                  have hdne : d ≠ q.ID := by
                    intro hde
                    exact hv.2 q hru (hde ▸ hd)
                  have hdgone : ∀ pend,
                      (d, pend) ∉ (s'.popDependentRules q.ID).2.edges := by
                    intro pend hpend
                    have := (popDependentRules_edges_sub hpend).2
                    rw [hdeps_ids] at this
                    exact this hd
                  have hinv' := inv_step_fix_false hnd hinv hp
                  have hco' : KeyCoherent
                      ((s'.popDependentRules q.ID).2) :=
                    fixInv_keyCoherent hnd hinv'
                  rcases runFixFuel_att_sub fuel _ fsF hco' h with ⟨_, hsub, _⟩
                  intro hdF
                  rcases hsub d hdF with hold | ⟨pend, hpend⟩
                  · rcases List.mem_append.mp hold with h1 | h2
                    · exact hdnotA h1
                    · exact hdne (by simpa using h2)
                  · exact hdgone pend hpend
                · -- a different rule was popped; recurse
                  have hnotin' : ru.ID ∉ fs.attempted ++ [q.ID] := by
                    intro hmem
                    rcases List.mem_append.mp hmem with h1 | h2
                    · exact hnotin h1
                    · have hre : ru.ID = q.ID := by simpa using h2
                      exact hqid hre.symm
                  by_cases hfq : q.Fix
                  · rw [if_pos hfq] at h
                    exact ih _ _ (inv_step_fix_true hnd hinv hp) h ru hru hfix
                      hin hnotin' d hd
                  · rw [if_neg hfq] at h
                    exact ih _ _ (inv_step_fix_false hnd hinv hp) h ru hru hfix
                      hin hnotin' d hd

/- ===================================================================
   Bridging the evaluation pass into the fix pass.
   =================================================================== -/

lemma evalInv_keyCoherent_fix {batch : List Rule} {st : EvalState}
    (hnd : (batch.map Rule.ID).Nodup) (hinv : EvalInv batch st) :
    KeyCoherent st.fixSorter := by
  intro p hp
  rcases hinv.fix_keys p.1 p.2 (by simpa using hp) with ⟨rud, hrud, _, _⟩
  rw [hinv.fixRules_eq, ruleOf_eq hnd hrud]
  exact (mem_rulesMap.mp hrud).2.symm

lemma fixInv_start {batch : List Rule} {st : EvalState}
    (hinv : EvalInv batch st) (ds : List String) :
    FixInv batch st.evaluated
      { sorter := st.fixSorter, descriptions := ds, attempted := [] } := by
  refine ⟨hinv.fixRules_eq, ?_, ?_, ?_⟩
  · intro d pd hdp
    rcases hinv.fix_keys d pd hdp with ⟨rud, hrud, hsatd, hpe⟩
    refine ⟨rud, hrud, hsatd, ?_⟩
    rw [hpe]
    apply List.filter_congr
    intro a _
    simp
  · intro id hid; cases hid
  · intro ru _ hid; cases hid

lemma satClosed_of_run {batch : List Rule} {rs : List YamlDerivedResource}
    {stE : EvalState} (hv : ValidBatch batch)
    (h : runEval rs (initEvalState batch) = .ok stE) :
    SatClosed batch stE.evaluated := by
  have hnd := hv.1
  have hinv0 := initEvalState_inv hnd
  rcases runEvalFuel_main hnd _ _ _ hinv0 h with ⟨hinvE, _, _, _, _⟩
  intro ru hru hsat p hp
  rcases satB_true_elim hsat with ⟨ru', hmem', hin, hcond'⟩
  have hrueq : ru' = ru :=
    rulesMap_unique hnd hmem' (mem_rulesMap.mpr ⟨hru, rfl⟩)
  subst hrueq
  have hpE : p ∈ stE.evaluated := hinvE.eval_closed ru' hru hin p hp
  rcases hinvE.eval_mem p hpE with ⟨rup, hmemp⟩
  rcases mem_rulesMap.mp hmemp with ⟨hrup, hpid⟩
  have hcondp : rup.Condition = true := by
    by_contra hcf
    have hcf' : rup.Condition = false := by simpa using hcf
    have hdep : ru'.ID ∈ depsOf batch rup.ID := by
      cases hlen : (rulesMap batch).length with
      | zero =>
          rw [List.length_eq_zero] at hlen
          rw [hlen] at hmem'
          cases hmem'
      | succ n =>
          unfold depsOf
          rw [hlen]
          exact direct_mem_getDependentsAux hmem' (hpid ▸ hp)
      -- ru' directly depends on p = rup.ID
    have := (eval_kernel hv _ _ _ hinv0 h rup hrup hcf'
      (hpid ▸ hpE) (List.not_mem_nil _) ru'.ID hdep).1
    exact this hin
  show satB batch stE.evaluated p = true
  simp [satB, lookupAL_of_mem (rulesMap_keys_nodup hnd) hmemp, hcondp, hpE]

/- ===================================================================
   ApplyFixes across the accumulated fix graphs.
   =================================================================== -/

lemma runFixFuel_ok_empty :
    ∀ (fuel : Nat) (fs fsF : FixState), runFixFuel fuel fs = .ok fsF →
      fsF.sorter.edges = [] := by
  intro fuel
  induction fuel with
  | zero =>
      intro fs fsF h
      simp only [runFixFuel] at h
      by_cases he : fs.sorter.isEmpty
      · rw [if_pos he] at h; cases h; exact isEmpty_iff_edges_nil.mp he
      · rw [if_neg he] at h; cases h
  | succ fuel ih =>
      intro fs fsF h
      simp only [runFixFuel] at h
      by_cases he : fs.sorter.isEmpty
      · rw [if_pos he] at h; cases h; exact isEmpty_iff_edges_nil.mp he
      · rw [if_neg he] at h
        cases hp : fs.sorter.popNextAvailable with
        | none => rw [hp] at h; cases h
        | some pr =>
            rw [hp] at h
            cases pr with
            | mk q s' =>
                dsimp only at h
                by_cases hf : q.Fix
                · rw [if_pos hf] at h; exact ih _ _ h
                · rw [if_neg hf] at h; exact ih _ _ h

lemma runFix_of_empty {fs : FixState} (h : fs.sorter.edges = []) :
    runFix fs = .ok fs := by
  unfold runFix runFixFuel
  rw [h]
  have : fs.sorter.isEmpty = true := isEmpty_iff_edges_nil.mpr h
  simp [this]

lemma applyFixesLoop_all_empty :
    ∀ (sorters : List RuleSorter) (descs : List String) (att : List RuleID),
      (∀ s ∈ sorters, s.edges = []) →
      applyFixesLoop sorters descs att = .ok (sorters, descs, att) := by
  intro sorters
  induction sorters with
  | nil => intro descs att _; rfl
  | cons s rest ih =>
      intro descs att hall
      have hs : s.edges = [] := hall s (List.mem_cons_self _ _)
      unfold applyFixesLoop
      rw [runFix_of_empty hs]
      dsimp only
      rw [ih descs att (fun x hx => hall x (List.mem_cons_of_mem _ hx))]

lemma applyFixesLoop_spec :
    ∀ (sorters : List RuleSorter) (descs : List String) (att : List RuleID)
      (ss : List RuleSorter) (ds : List String) (at' : List RuleID),
      (∀ s ∈ sorters, KeyCoherent s) →
      applyFixesLoop sorters descs att = .ok (ss, ds, at') →
      (∀ s ∈ ss, s.edges = []) ∧
      ∃ ts : List (List RuleID), ts.length = sorters.length ∧
        at' = att ++ ts.flatten ∧
        ds = descs ++
          ((sorters.zip ts).map (fun p => descOfTrace p.1.rules p.2)).flatten := by
  intro sorters
  induction sorters with
  | nil =>
      intro descs att ss ds at' _ h
      cases h
      exact ⟨fun s hs => (by cases hs), [], rfl, by simp, by simp⟩
  | cons s rest ih =>
      intro descs att ss ds at' hco h
      unfold applyFixesLoop at h
      cases hrun : runFix ⟨s, descs, att⟩ with
      | error e => rw [hrun] at h; cases h
      | ok fs =>
          rw [hrun] at h
          dsimp only at h
          cases hloop : applyFixesLoop rest fs.descriptions fs.attempted with
          | error e => rw [hloop] at h; cases h
          | ok res =>
              rw [hloop] at h
              cases h
              have hcos : KeyCoherent s := hco s (List.mem_cons_self _ _)
              have hrun' : runFixFuel
                  (FixState.sorter ⟨s, descs, att⟩).edges.length
                  ⟨s, descs, att⟩ = .ok fs := hrun
              rcases runFixFuel_trace _ _ _ hcos hrun' with ⟨_, t, ht, hd⟩
              rcases ih fs.descriptions fs.attempted res.1 res.2.1 res.2.2
                  (fun x hx => hco x (List.mem_cons_of_mem _ hx)) (by
                    rw [hloop]) with ⟨hempty, ts, hlen, hat, hds⟩
              refine ⟨?_, t :: ts, by simp [hlen], ?_, ?_⟩
              · intro x hx
                rcases List.mem_cons.mp hx with rfl | hxm
                · exact runFixFuel_ok_empty _ _ _ hrun'
                · exact hempty x hxm
              · rw [hat, ht]
                simp
              · rw [hds, hd]
                simp

lemma applyFixesLoop_drained :
    ∀ (sorters : List RuleSorter) (descs : List String) (att : List RuleID)
      (ss : List RuleSorter) (ds : List String) (at' : List RuleID),
      applyFixesLoop sorters descs att = .ok (ss, ds, at') →
      ∀ s ∈ ss, s.edges = [] := by
  intro sorters
  induction sorters with
  | nil =>
      intro descs att ss ds at' h s hs
      cases h
      cases hs
  | cons s0 rest ih =>
      intro descs att ss ds at' h s hs
      unfold applyFixesLoop at h
      cases hrun : runFix ⟨s0, descs, att⟩ with
      | error e => rw [hrun] at h; cases h
      | ok fs =>
          rw [hrun] at h
          dsimp only at h
          cases hloop : applyFixesLoop rest fs.descriptions fs.attempted with
          | error e => rw [hloop] at h; cases h
          | ok res =>
              rw [hloop] at h
              cases h
              rcases List.mem_cons.mp hs with rfl | hsm
              · exact runFixFuel_ok_empty _ _ _ hrun
              · exact ih _ _ _ _ _ hloop s hsm

/- ===================================================================
   Claim theorems.
   =================================================================== -/

/-- C1: whenever the dependency graph is non-empty but no rule has an
empty pending set (a prerequisite cycle, or a prerequisite ID never
registered in the batch), popNextAvailable yields no rule (the source
panics at that point) and the evaluation drain used by every lint entry
point surfaces UnsatisfiableOrder as a distinct error, returning no
result list at all — it neither proceeds silently nor hands back
partial results. -/
theorem C1_unsatisfiable_order_surfaced (rs : List YamlDerivedResource)
    (st : EvalState) (h1 : st.sorter.edges ≠ [])
    (h2 : ∀ p ∈ st.sorter.edges, p.2 ≠ ([] : List RuleID)) :
    st.sorter.popNextAvailable = none ∧
    runEval rs st = .error .unsatisfiableOrder := by
  have hpop : st.sorter.popNextAvailable = none :=
    popNextAvailable_none_iff.mpr h2
  refine ⟨hpop, ?_⟩
  unfold runEval
  cases hE : st.sorter.edges with
  | nil => exact absurd hE h1
  | cons a tl =>
      rw [List.length_cons]
      simp only [runEvalFuel]
      have hne : ¬ st.sorter.isEmpty = true := by
        rw [isEmpty_iff_edges_nil, hE]
        simp
      rw [if_neg hne, hpop]

/-- Witness for C1 at the concrete two-rule cycle A↔B. -/
theorem C1_witness :
    ((initEvalState cyclicBatch).sorter.edges ≠ [] ∧
     (∀ p ∈ (initEvalState cyclicBatch).sorter.edges,
       p.2 ≠ ([] : List RuleID))) ∧
    ((initEvalState cyclicBatch).sorter.popNextAvailable = none ∧
     runEval [] (initEvalState cyclicBatch) = .error .unsatisfiableOrder) :=
  ⟨⟨by decide, by decide⟩,
   C1_unsatisfiable_order_surfaced [] (initEvalState cyclicBatch)
     (by decide) (by decide)⟩

/-- C2 fails on the code: in the diamond batch (A fails; B and C assume
A; D assumes B and C) the evaluation pass emits five reports for four
rules — rule D is reported twice, because getDependents recurses without
a visited set and reaches D along both paths.  This theorem evaluates
the embedded code at that failing input. -/
theorem C2_diamond_double_report :
    (runEval [] (initEvalState diamondBatch)).map
      (fun st => (st.results.map Result.Message,
        st.results.count (mkResult [] (ruleOf (rulesMap diamondBatch) "D")))) =
      .ok (["a", "b", "d", "c", "d"], 2) := rfl

/-- C3: when a rule's Condition returns false during the evaluation pass,
every transitive dependent d is never evaluated (its Condition closure is
never invoked), is reported as a violation, and keeps its fix-graph entry
— still pending exactly on its not-yet-satisfied prerequisites — so it
remains a candidate for the fix pass. -/
theorem C3_failed_prereq_cascade (batch : List Rule)
    (rs : List YamlDerivedResource) (stE : EvalState) (hv : ValidBatch batch)
    (h : runEval rs (initEvalState batch) = .ok stE) (ru : Rule)
    (hru : ru ∈ batch) (hcond : ru.Condition = false)
    (hev : ru.ID ∈ stE.evaluated) (d : RuleID)
    (hd : d ∈ depsOf batch ru.ID) :
    d ∉ stE.evaluated ∧
    mkResult rs (ruleOf (rulesMap batch) d) ∈ stE.results ∧
    (d, (ruleOf (rulesMap batch) d).Prereqs.filter
        (fun p => !(satB batch stE.evaluated p))) ∈ stE.fixSorter.edges := by
  have hnd := hv.1
  have hinv0 := initEvalState_inv hnd
  have hk := eval_kernel hv _ _ _ hinv0 h ru hru hcond hev
    (List.not_mem_nil _) d hd
  rcases runEvalFuel_main hnd _ _ _ hinv0 h with ⟨hinvE, _, _, _, _⟩
  refine ⟨hk.1, hk.2, ?_⟩
  have hd' : d ∈ getDependentsAux (rulesMap batch)
      (rulesMap batch).length ru.ID := hd
  rcases exists_of_mem_getDependentsAux hd' with ⟨rud, hrud⟩
  have hsatd : satB batch stE.evaluated d = false :=
    satB_false_of_not_mem hk.1
  have := hinvE.fix_complete d rud hrud hsatd
  rw [ruleOf_eq hnd hrud]
  exact this

/-- Witness for C3 at the concrete chain A(false) ← B. -/
theorem C3_witness :
    ValidBatch chainBatch ∧
    ("B" ∉ (evalStateOf chainBatch).evaluated ∧
     mkResult [] (ruleOf (rulesMap chainBatch) "B") ∈
       (evalStateOf chainBatch).results ∧
     ("B", (ruleOf (rulesMap chainBatch) "B").Prereqs.filter
        (fun p => !(satB chainBatch (evalStateOf chainBatch).evaluated p))) ∈
       (evalStateOf chainBatch).fixSorter.edges) :=
  ⟨by decide,
   C3_failed_prereq_cascade chainBatch [] (evalStateOf chainBatch) (by decide)
     rfl (mkRule "A" [] false "a" false "fixA") (by decide) rfl (by decide)
     "B" (by decide)⟩

/-- C4: when a rule's Condition returns true during the evaluation pass,
the rule is removed from the fix graph (so its Fix is never attempted in
the fix pass), its ID is deleted from every remaining fix-graph pending
set, and a rule all of whose prerequisites are satisfied is left with an
empty pending set, free to run its fix. -/
theorem C4_satisfied_rule_excused (batch : List Rule)
    (rs : List YamlDerivedResource) (stE : EvalState) (hv : ValidBatch batch)
    (h : runEval rs (initEvalState batch) = .ok stE) (ru : Rule)
    (hru : ru ∈ batch) (hcond : ru.Condition = true)
    (hev : ru.ID ∈ stE.evaluated) :
    (∀ pend, (ru.ID, pend) ∉ stE.fixSorter.edges) ∧
    (∀ d pend, (d, pend) ∈ stE.fixSorter.edges → ru.ID ∉ pend) ∧
    (∀ fsF, runFix ⟨stE.fixSorter, [], []⟩ = .ok fsF →
      ru.ID ∉ fsF.attempted) ∧
    (∀ d rud, (d, rud) ∈ rulesMap batch →
      satB batch stE.evaluated d = false →
      (∀ p ∈ rud.Prereqs, satB batch stE.evaluated p = true) →
      (d, ([] : List RuleID)) ∈ stE.fixSorter.edges) := by
  have hnd := hv.1
  have hinv0 := initEvalState_inv hnd
  rcases runEvalFuel_main hnd _ _ _ hinv0 h with ⟨hinvE, _, _, _, _⟩
  have hsatr : satB batch stE.evaluated ru.ID = true := by
    simp [satB,
      lookupAL_of_mem (rulesMap_keys_nodup hnd) (mem_rulesMap.mpr ⟨hru, rfl⟩),
      hcond, hev]
  have hnotkey : ∀ pend, (ru.ID, pend) ∉ stE.fixSorter.edges := by
    intro pend hpend
    rcases hinvE.fix_keys ru.ID pend hpend with ⟨_, _, hsatd, _⟩
    rw [hsatr] at hsatd
    cases hsatd
  refine ⟨hnotkey, ?_, ?_, ?_⟩
  · intro d pend hpend hmem
    rcases hinvE.fix_keys d pend hpend with ⟨rud, _, _, hpe⟩
    rw [hpe] at hmem
    have := (List.mem_filter.mp hmem).2
    rw [hsatr] at this
    cases this
  · intro fsF hrun
    have hco : KeyCoherent stE.fixSorter := evalInv_keyCoherent_fix hnd hinvE
    have hrun' : runFixFuel stE.fixSorter.edges.length
        ⟨stE.fixSorter, [], []⟩ = .ok fsF := hrun
    rcases runFixFuel_att_sub _ _ _ hco hrun' with ⟨_, hsub, _⟩
    intro hatt
    rcases hsub ru.ID hatt with hnil | ⟨pend, hpend⟩
    · cases hnil
    · exact hnotkey pend hpend
  · intro d rud hmemd hsatd hall
    have := hinvE.fix_complete d rud hmemd hsatd
    have hfil : rud.Prereqs.filter
        (fun p => !(satB batch stE.evaluated p)) = [] := by
      apply List.filter_eq_nil_iff.mpr
      intro p hp
      rw [hall p hp]
      simp
    rw [hfil] at this
    exact this

/-- Witness for C4 at the chain A(true) ← B(false) ← C. -/
theorem C4_witness :
    ValidBatch chainPassBatch ∧
    ((∀ pend, ("A", pend) ∉ (evalStateOf chainPassBatch).fixSorter.edges) ∧
     (∀ d pend, (d, pend) ∈ (evalStateOf chainPassBatch).fixSorter.edges →
       "A" ∉ pend) ∧
     (∀ fsF, runFix ⟨(evalStateOf chainPassBatch).fixSorter, [], []⟩ =
         .ok fsF → "A" ∉ fsF.attempted) ∧
     (∀ d rud, (d, rud) ∈ rulesMap chainPassBatch →
       satB chainPassBatch (evalStateOf chainPassBatch).evaluated d = false →
       (∀ p ∈ rud.Prereqs,
         satB chainPassBatch (evalStateOf chainPassBatch).evaluated p = true) →
       (d, ([] : List RuleID)) ∈ (evalStateOf chainPassBatch).fixSorter.edges)) :=
  ⟨by decide,
   C4_satisfied_rule_excused chainPassBatch [] (evalStateOf chainPassBatch)
     (by decide) rfl (mkRule "A" [] true "a" false "") (by decide) rfl
     (by decide)⟩

/-- C5: in the fix pass over the graph left by the evaluation pass, once
a rule whose Fix returns false has been popped, no transitive dependent
of it ever has its Fix attempted; the recorded descriptions are exactly
the FixDescriptions of the attempted rules whose Fix returned true, in
attempt order (so nothing is recorded for the failed rule or its
dependents); and a materialized rule with an absent Fix behaves as
always failing to fix. -/
theorem C5_failed_fix_cascade (batch : List Rule)
    (rs : List YamlDerivedResource) (stE : EvalState) (fsF : FixState)
    (hv : ValidBatch batch)
    (h : runEval rs (initEvalState batch) = .ok stE)
    (hrun : runFix ⟨stE.fixSorter, [], []⟩ = .ok fsF)
    (ru : Rule) (hru : ru ∈ batch) (hfix : ru.Fix = false)
    (hatt : ru.ID ∈ fsF.attempted) :
    (∀ d ∈ depsOf batch ru.ID, d ∉ fsF.attempted) ∧
    fsF.descriptions = descOfTrace (rulesMap batch) fsF.attempted ∧
    (∀ (tr : TypedRule Resource) (x : Resource) (ydr : YamlDerivedResource),
      tr.Fix = none → (tr.CreateRule x ydr).Fix = false) := by
  have hnd := hv.1
  have hinv0 := initEvalState_inv hnd
  rcases runEvalFuel_main hnd _ _ _ hinv0 h with ⟨hinvE, _, _, _, _⟩
  have hsatc := satClosed_of_run hv h
  have hfinv := fixInv_start hinvE []
  have hrun' : runFixFuel stE.fixSorter.edges.length
      ⟨stE.fixSorter, [], []⟩ = .ok fsF := hrun
  refine ⟨?_, ?_, ?_⟩
  · intro d hd
    exact fix_kernel hv hsatc _ _ _ hfinv hrun' ru hru hfix hatt
      (List.not_mem_nil _) d hd
  · have hco : KeyCoherent stE.fixSorter := evalInv_keyCoherent_fix hnd hinvE
    rcases runFixFuel_trace _ _ _ hco hrun' with ⟨_, t, ht, hd⟩
    have hteq : t = fsF.attempted := by
      rw [ht]
      simp
    rw [hd, hteq]
    have : (FixState.sorter ⟨stE.fixSorter, [], []⟩).rules = rulesMap batch :=
      hinvE.fixRules_eq
    rw [this]
    simp
  · intro tr x ydr hnone
    simp [TypedRule.CreateRule, hnone]

/-- Witness for C5 at the chain A(check false, fix false) ← B. -/
theorem C5_witness :
    ValidBatch chainBatch ∧
    ((∀ d ∈ depsOf chainBatch "A", d ∉ (fixStateOf chainBatch).attempted) ∧
     (fixStateOf chainBatch).descriptions =
       descOfTrace (rulesMap chainBatch) (fixStateOf chainBatch).attempted ∧
     (∀ (tr : TypedRule Resource) (x : Resource) (ydr : YamlDerivedResource),
       tr.Fix = none → (tr.CreateRule x ydr).Fix = false)) :=
  ⟨by decide,
   C5_failed_fix_cascade chainBatch [] (evalStateOf chainBatch)
     (fixStateOf chainBatch) (by decide) rfl rfl
     (mkRule "A" [] false "a" false "fixA") (by decide) rfl (by decide)⟩

/-- C6 fails on the code: the tie-break among simultaneously ready rules
is whatever order Go's randomized map iteration presents, so two runs
over the identical rule map (same rules, same pending sets — here the two
association lists are permutations of one another) can emit the reports
in different orders.  Determinism across runs is therefore not provided
by the code. -/
theorem C6_map_iteration_order_dependence :
    ((newRuleSorter pairAB).rules.Perm (newRuleSorter pairBA).rules ∧
     (newRuleSorter pairAB).edges.Perm (newRuleSorter pairBA).edges) ∧
    (runEval [] (initEvalState pairAB)).map
      (fun st => st.results.map Result.Message) = .ok ["a", "b"] ∧
    (runEval [] (initEvalState pairBA)).map
      (fun st => st.results.map Result.Message) = .ok ["b", "a"] ∧
    (["a", "b"] : List String) ≠ ["b", "a"] :=
  ⟨⟨by decide, by decide⟩, rfl, rfl, by decide⟩

/-- C7 as stated fails on the code: ApplyFixes returns the linter's full
accumulated resource list even when not a single fix succeeded (here the
only attempted rule, A, has a failing fix, so the set of resources
actually mutated by a successful Fix is empty, yet the returned list is
not). -/
theorem C7_counterexample :
    (exampleLinter.ApplyFixes).map
      (fun out => (out.1, out.2.1, out.2.2.2)) =
      .ok ([exampleResource], [], ["A"]) ∧
    exampleRule.Fix = false ∧
    ([exampleResource] : List Resource) ≠ [] :=
  ⟨rfl, rfl, by decide⟩

/-- C7 amended: ApplyFixes returns the linter's full accumulated resource
list (mutations are visible through those shared references), together
with the applied-fix descriptions collected unit by unit in registration
order — within each unit exactly the FixDescriptions of the attempted
rules whose Fix succeeded, in attempt order. -/
theorem C7_amended_full_resource_list (l : Linter)
    (out : List Resource × List String × Linter × List RuleID)
    (hco : ∀ s ∈ l.fixes, KeyCoherent s) (h : l.ApplyFixes = .ok out) :
    out.1 = l.resources ∧
    ∃ ts : List (List RuleID), ts.length = l.fixes.length ∧
      out.2.2.2 = ts.flatten ∧
      out.2.1 =
        ((l.fixes.zip ts).map (fun p => descOfTrace p.1.rules p.2)).flatten := by
  unfold Linter.ApplyFixes at h
  cases hloop : applyFixesLoop l.fixes [] [] with
  | error e => rw [hloop] at h; cases h
  | ok res =>
      rw [hloop] at h
      cases h
      rcases applyFixesLoop_spec l.fixes [] [] res.1 res.2.1 res.2.2 hco
        (by rw [hloop]) with ⟨_, ts, hlen, hat, hds⟩
      refine ⟨rfl, ts, hlen, ?_, ?_⟩
      · simpa using hat
      · simpa using hds

/-- Witness for C7's amended statement on exampleLinter. -/
theorem C7_witness :
    (∀ s ∈ exampleLinter.fixes, KeyCoherent s) ∧
    (exampleApplyOut.1 = exampleLinter.resources ∧
     ∃ ts : List (List RuleID), ts.length = exampleLinter.fixes.length ∧
       exampleApplyOut.2.2.2 = ts.flatten ∧
       exampleApplyOut.2.1 =
         ((exampleLinter.fixes.zip ts).map
           (fun p => descOfTrace p.1.rules p.2)).flatten) :=
  ⟨by decide,
   C7_amended_full_resource_list exampleLinter exampleApplyOut (by decide) rfl⟩

/-- C9: for a resource whose underlying object type is not handled by the
createRules type switch, LintResource returns the type error and no
results; the generic rules materialized before the switch are discarded
(none is evaluated — the trace is empty) and the fix graph registered for
the resource is completely empty. -/
theorem C9_unconsidered_type_rejected (l : Linter)
    (ydr : YamlDerivedResource) (t : String)
    (h : ydr.resource.object = .other t) :
    l.LintResource ydr = .ok ([],
      some ("Resources of type " ++ t ++
        " have not been considered by the linter"),
      { l with fixes := l.fixes ++ [newRuleSorter []] }, []) := by
  have hcr : l.createRules ydr = .error
      ("Resources of type " ++ t ++
        " have not been considered by the linter") := by
    unfold Linter.createRules
    dsimp only
    rw [h]
  unfold Linter.LintResource
  rw [hcr]
  rfl

/-- Witness for C9: a linter with a registered generic rule still
discards everything for an unconsidered object type. -/
theorem C9_witness :
    otherYdr.resource.object = KubeObject.other "Foo" ∧
    genericLinter.LintResource otherYdr = .ok ([],
      some ("Resources of type " ++ "Foo" ++
        " have not been considered by the linter"),
      { genericLinter with fixes := genericLinter.fixes ++ [newRuleSorter []] },
      []) :=
  ⟨rfl, C9_unconsidered_type_rejected genericLinter otherYdr "Foo" rfl⟩

/-- C10: an ok ApplyFixes run drains every accumulated fix graph to
empty, and a second ApplyFixes call with no intervening lint invokes no
Fix at all: it returns the same resource list, an empty description list
and an empty attempt trace, leaving the linter unchanged. -/
theorem C10_applyfixes_drains (l : Linter)
    (out : List Resource × List String × Linter × List RuleID)
    (h : l.ApplyFixes = .ok out) :
    (∀ s ∈ out.2.2.1.fixes, s.edges = []) ∧
    out.2.2.1.ApplyFixes = .ok (out.1, [], out.2.2.1, []) := by
  unfold Linter.ApplyFixes at h
  cases hloop : applyFixesLoop l.fixes [] [] with
  | error e => rw [hloop] at h; cases h
  | ok res =>
      rw [hloop] at h
      cases h
      have hempty : ∀ s ∈ res.1, s.edges = [] :=
        applyFixesLoop_drained l.fixes [] [] res.1 res.2.1 res.2.2
          (by rw [hloop])
      refine ⟨hempty, ?_⟩
      show ({ l with fixes := res.1 } : Linter).ApplyFixes = _
      unfold Linter.ApplyFixes
      rw [show ({ l with fixes := res.1 } : Linter).fixes = res.1 from rfl,
        applyFixesLoop_all_empty res.1 [] [] hempty]

/-- Witness for C10 on exampleLinter. -/
theorem C10_witness :
    (∀ s ∈ exampleApplyOut.2.2.1.fixes, s.edges = []) ∧
    exampleApplyOut.2.2.1.ApplyFixes =
      .ok (exampleApplyOut.1, [], exampleApplyOut.2.2.1, []) :=
  C10_applyfixes_drains exampleLinter exampleApplyOut rfl

/- ===================================================================
   Frame reasoning in the heap model, for the clone claim.
   =================================================================== -/

lemma find?_map_write {m : List (Nat × List RuleID)} {a b : Nat}
    {v : List RuleID} (hne : b ≠ a) :
    (m.map (fun p => if p.1 = a then (a, v) else p)).find?
      (fun p => p.1 == b) = m.find? (fun p => p.1 == b) := by
  induction m with
  | nil => rfl
  | cons p t ih =>
      by_cases hpa : p.1 = a
      · have h1 : ((a : Nat) == b) = false := by simp [Ne.symm hne]
        have h2 : (p.1 == b) = false := by rw [hpa]; exact h1
        simp only [List.map_cons, if_pos hpa, List.find?_cons]
        rw [h1, h2, ih]
      · simp only [List.map_cons, if_neg hpa, List.find?_cons]
        cases hpb : (p.1 == b) with
        | true => rfl
        | false => exact ih

lemma write_read_ne {s : Store} {a b : Nat} {v : List RuleID}
    (hne : b ≠ a) : (s.write a v).read b = s.read b := by
  show (((s.mem.map (fun p => if p.1 = a then (a, v) else p)).find?
      (fun p => p.1 == b)).map (fun p => p.2)).getD [] =
    ((s.mem.find? (fun p => p.1 == b)).map (fun p => p.2)).getD []
  rw [find?_map_write hne]

lemma erase_fold_frame (deps : List RuleID) (E : List (RuleID × Nat))
    (x : RuleID) :
    ∀ (s : Store) (b : Nat), b ∉ E.map (fun p => p.2) →
      (deps.foldl (fun st d =>
        match lookupAL E d with
        | none => st
        | some a => st.write a ((st.read a).filter (fun q => q != x))) s).read b
      = s.read b := by
  induction deps with
  | nil => intro s b _; rfl
  | cons d rest ih =>
      intro s b hb
      rw [List.foldl_cons]
      cases hl : lookupAL E d with
      | none => exact ih s b hb
      | some a =>
          have haddr : a ∈ E.map (fun p => p.2) :=
            List.mem_map_of_mem (fun p => p.2) (mem_of_lookupAL hl)
          have hba : b ≠ a := fun he => hb (he ▸ haddr)
          rw [ih _ b hb]
          exact write_read_ne hba

lemma applyOpH_frame (op : OpH) (g : GraphH) (s : Store) (b : Nat)
    (hb : b ∉ addrsOf g) : ((applyOpH op g s).2).read b = s.read b := by
  cases op with
  | pop =>
      show ((popNextAvailableH g s).2.2).read b = s.read b
      unfold popNextAvailableH
      cases hf : g.edges.find? (fun p => (s.read p.2).isEmpty) with
      | none => rfl
      | some entry =>
          dsimp only
          exact erase_fold_frame _ _ _ s b hb
  | remove id =>
      show ((removeH g s id).2).read b = s.read b
      unfold removeH
      dsimp only
      apply erase_fold_frame
      intro hmem
      apply hb
      rcases List.mem_map.mp hmem with ⟨p, hp, rfl⟩
      exact List.mem_map_of_mem _ (List.mem_filter.mp hp).1
  | popDeps id => rfl

lemma applyOpH_addrs (op : OpH) (g : GraphH) (s : Store) :
    ∀ a ∈ addrsOf (applyOpH op g s).1, a ∈ addrsOf g := by
  intro a ha
  cases op with
  | pop =>
      revert ha
      show a ∈ addrsOf (popNextAvailableH g s).2.1 → a ∈ addrsOf g
      unfold popNextAvailableH
      cases hf : g.edges.find? (fun p => (s.read p.2).isEmpty) with
      | none => exact id
      | some entry =>
          dsimp only
          intro ha
          rcases List.mem_map.mp ha with ⟨p, hp, rfl⟩
          exact List.mem_map_of_mem _ (List.mem_filter.mp hp).1
  | remove id =>
      rcases List.mem_map.mp ha with ⟨p, hp, rfl⟩
      exact List.mem_map_of_mem _ (List.mem_filter.mp hp).1
  | popDeps id =>
      rcases List.mem_map.mp ha with ⟨p, hp, rfl⟩
      exact List.mem_map_of_mem _ (List.mem_filter.mp hp).1

lemma applyOpH_rules (op : OpH) (g : GraphH) (s : Store) :
    (applyOpH op g s).1.rules = g.rules := by
  cases op with
  | pop =>
      show (popNextAvailableH g s).2.1.rules = g.rules
      unfold popNextAvailableH
      cases hf : g.edges.find? (fun p => (s.read p.2).isEmpty) with
      | none => rfl
      | some entry => rfl
  | remove id => rfl
  | popDeps id => rfl

lemma runOpsH_frame :
    ∀ (σ : List OpH) (g : GraphH) (s : Store) (b : Nat), b ∉ addrsOf g →
      ((runOpsH σ g s).2).read b = s.read b := by
  intro σ
  induction σ with
  | nil => intro g s b _; rfl
  | cons op rest ih =>
      intro g s b hb
      show ((runOpsH rest (applyOpH op g s).1 (applyOpH op g s).2).2).read b =
        s.read b
      have hb' : b ∉ addrsOf (applyOpH op g s).1 := fun hmem =>
        hb (applyOpH_addrs op g s b hmem)
      rw [ih _ _ b hb', applyOpH_frame op g s b hb]

lemma runOpsH_rules :
    ∀ (σ : List OpH) (g : GraphH) (s : Store),
      (runOpsH σ g s).1.rules = g.rules := by
  intro σ
  induction σ with
  | nil => intro g s; rfl
  | cons op rest ih =>
      intro g s
      show (runOpsH rest (applyOpH op g s).1 (applyOpH op g s).2).1.rules =
        g.rules
      rw [ih, applyOpH_rules]

lemma cloneEdgesH_next :
    ∀ (E : List (RuleID × Nat)) (s : Store),
      s.next ≤ (cloneEdgesH E s).2.next := by
  intro E
  induction E with
  | nil => intro s; exact Nat.le_refl _
  | cons p rest ih =>
      intro s
      have h1 : s.next + 1 ≤ (cloneEdgesH rest (s.alloc (s.read p.2)).2).2.next := by
        have := ih (s.alloc (s.read p.2)).2
        simpa [Store.alloc] using this
      exact Nat.le_trans (Nat.le_succ _) h1

lemma cloneEdgesH_addrs_ge :
    ∀ (E : List (RuleID × Nat)) (s : Store),
      ∀ a ∈ (cloneEdgesH E s).1.map (fun p => p.2), s.next ≤ a := by
  intro E
  induction E with
  | nil => intro s a ha; cases ha
  | cons p rest ih =>
      intro s a ha
      rcases List.mem_map.mp ha with ⟨q, hq, rfl⟩
      rcases List.mem_cons.mp hq with rfl | hqm
      · exact Nat.le_refl _
      · have := ih (s.alloc (s.read p.2)).2 q.2
          (List.mem_map_of_mem (fun p => p.2) hqm)
        have h1 : s.next + 1 ≤ q.2 := by simpa [Store.alloc] using this
        exact Nat.le_trans (Nat.le_succ _) h1

lemma newRuleSorterH_next :
    ∀ (batch : List Rule) (s : Store),
      s.next ≤ (newRuleSorterH batch s).2.next := by
  intro batch
  induction batch with
  | nil => intro s; exact Nat.le_refl _
  | cons r rest ih =>
      intro s
      have h1 : s.next + 1 ≤ (newRuleSorterH rest (s.alloc r.Prereqs).2).2.next := by
        have := ih (s.alloc r.Prereqs).2
        simpa [Store.alloc] using this
      exact Nat.le_trans (Nat.le_succ _) h1

lemma newRuleSorterH_addrs_lt :
    ∀ (batch : List Rule) (s : Store),
      ∀ a ∈ addrsOf (newRuleSorterH batch s).1,
        a < (newRuleSorterH batch s).2.next := by
  intro batch
  induction batch with
  | nil => intro s a ha; cases ha
  | cons r rest ih =>
      intro s a ha
      rcases List.mem_map.mp ha with ⟨q, hq, rfl⟩
      rcases List.mem_cons.mp hq with rfl | hqm
      · show s.next < (newRuleSorterH rest (s.alloc r.Prereqs).2).2.next
        have h1 : (s.alloc r.Prereqs).2.next ≤
            (newRuleSorterH rest (s.alloc r.Prereqs).2).2.next :=
          newRuleSorterH_next rest _
        have h2 : s.next < (s.alloc r.Prereqs).2.next := by
          simp [Store.alloc]
        exact Nat.lt_of_lt_of_le h2 h1
      · exact ih (s.alloc r.Prereqs).2 q.2
          (List.mem_map_of_mem (fun p => p.2) hqm)

/-- C8: after cloning, the original graph and the clone hold disjoint
pending cells over the same rules map, so any sequence of
popNextAvailable, remove or popDependentRules operations applied to one
graph leaves every pending set of the other graph unchanged, while both
graphs keep mapping every rule ID of the batch to the same Rule. -/
theorem C8_clone_independent (batch : List Rule) (σ : List OpH) :
    (∀ p ∈ (c8graph batch).edges,
      ((runOpsH σ (c8clone batch) (c8cstore batch)).2).read p.2 =
        (c8cstore batch).read p.2) ∧
    (∀ p ∈ (c8clone batch).edges,
      ((runOpsH σ (c8graph batch) (c8cstore batch)).2).read p.2 =
        (c8cstore batch).read p.2) ∧
    (runOpsH σ (c8clone batch) (c8cstore batch)).1.rules =
      (c8graph batch).rules ∧
    (runOpsH σ (c8graph batch) (c8cstore batch)).1.rules =
      (c8clone batch).rules := by
  have hglt : ∀ a ∈ addrsOf (c8graph batch), a < (c8store batch).next :=
    newRuleSorterH_addrs_lt batch emptyStore
  have hcge : ∀ a ∈ addrsOf (c8clone batch), (c8store batch).next ≤ a := by
    intro a ha
    exact cloneEdgesH_addrs_ge (c8graph batch).edges (c8store batch) a ha
  have hrules_clone : (c8clone batch).rules = (c8graph batch).rules := rfl
  refine ⟨?_, ?_, ?_, ?_⟩
  · intro p hp
    apply runOpsH_frame
    intro hmem
    have h1 : p.2 < (c8store batch).next :=
      hglt p.2 (List.mem_map_of_mem (fun p => p.2) hp)
    have h2 : (c8store batch).next ≤ p.2 := hcge p.2 hmem
    exact Nat.lt_irrefl _ (Nat.lt_of_lt_of_le h1 h2)
  · intro p hp
    apply runOpsH_frame
    intro hmem
    have h1 : p.2 < (c8store batch).next :=
      hglt p.2 hmem
    have h2 : (c8store batch).next ≤ p.2 :=
      hcge p.2 (List.mem_map_of_mem (fun p => p.2) hp)
    exact Nat.lt_irrefl _ (Nat.lt_of_lt_of_le h1 h2)
  · rw [runOpsH_rules, hrules_clone]
  · rw [runOpsH_rules, hrules_clone]

end Kubelint
